import Mathlib

/-!
Formal verification of the WannaCRI USM container engine
(repository donmai-me/WannaCRI), against its natural-language
specification.

The development is a shallow embedding of the Python sources into Lean:

* byte strings are modelled as `List Nat` (each entry one byte);
  Python text strings are modelled as their encoded byte sequences, so a
  text codec round trip (str.encode / bytes.decode) is the identity on
  the model.  Integers are `Nat` / `Int` with explicit bounds where
  Python `int.to_bytes` would raise `OverflowError`.
* fallible Python code (raised exceptions: `ValueError`, `OverflowError`,
  `IndexError`, `AttributeError`, `TypeError`) is modelled with `Option`;
  every distinct error becomes `none`.
* sources embedded here: `wannacri/usm/tools.py` (cipher, padding
  helpers), `wannacri/usm/page.py` (the CRI @UTF page codec),
  `wannacri/usm/chunk.py` (the chunk codec), `wannacri/usm/types.py`
  (enumerations), `wannacri/usm/usm.py` (muxer helpers and `Usm.__init__`)
  and `wannacri/usm/media/protocols.py` (per-channel chunk generation).
-/

namespace WannaCRI

/-! ## Byte-string utilities

Models of the Python primitives `int.from_bytes(_, "big")`,
`int.to_bytes(n, "big")` (signed and unsigned) and list slicing
`xs[a:b]`. -/

/-- Model of `int.from_bytes(bs, "big")` (unsigned). -/
def beVal (bs : List Nat) : Nat :=
  bs.foldl (fun acc b => acc * 256 + b) 0

/-- Big-endian byte encoding of `n` on exactly `k` bytes (the underlying
total function; bounds are checked by `uToBytes` / `sToBytes`). -/
def toBytesBE : Nat → Nat → List Nat
  | 0, _ => []
  | k + 1, n => toBytesBE k (n / 256) ++ [n % 256]

/-- Model of `n.to_bytes(k, "big")` for unsigned `n`: Python raises
`OverflowError` when the value does not fit. -/
def uToBytes (k : Nat) (n : Int) : Option (List Nat) :=
  if 0 ≤ n ∧ n < (2 : Int) ^ (8 * k) then some (toBytesBE k n.toNat) else none

/-- Model of `n.to_bytes(k, "big", signed=True)`. -/
def sToBytes (k : Nat) (n : Int) : Option (List Nat) :=
  if -((2 : Int) ^ (8 * k - 1)) ≤ n ∧ n < (2 : Int) ^ (8 * k - 1) then
    some (toBytesBE k (n % ((2 : Int) ^ (8 * k))).toNat)
  else none

/-- Model of `int.from_bytes(bs, "big", signed=True)`. -/
def sFromBytes (bs : List Nat) : Int :=
  let v : Int := beVal bs
  if 2 * v < (2 : Int) ^ (8 * bs.length) then v else v - (2 : Int) ^ (8 * bs.length)

/-- Model of the Python slice `xs[a:b]` (for `0 ≤ a ≤ b`; out-of-range
bounds are clipped, exactly as in Python). -/
def sliceList (xs : List Nat) (a b : Nat) : List Nat :=
  (xs.take b).drop a

/-- Model of `xs[off:][: xs[off:].index(0)]`, the NUL-terminated string
read used by the page decoder; `none` models the `ValueError` raised by
`index` when no NUL byte follows. -/
def readCString (arr : List Nat) (off : Nat) : Option (List Nat) :=
  let rest := arr.drop off
  if 0 ∈ rest then some (rest.takeWhile (fun b => b != 0)) else none

/-- One list extends another by appending (used to track that the string
and byte pools of the page encoder only ever grow). -/
def Extends (a b : List Nat) : Prop := ∃ t, b = a ++ t

theorem Extends.refl (a : List Nat) : Extends a a := ⟨[], by simp⟩

theorem Extends.trans {a b c : List Nat} (h₁ : Extends a b) (h₂ : Extends b c) :
    Extends a c := by
  obtain ⟨t₁, rfl⟩ := h₁
  obtain ⟨t₂, rfl⟩ := h₂
  exact ⟨t₁ ++ t₂, by simp⟩

theorem Extends.append (a t : List Nat) : Extends a (a ++ t) := ⟨t, rfl⟩

theorem length_toBytesBE (k n : Nat) : (toBytesBE k n).length = k := by
  induction k generalizing n with
  | zero => rfl
  | succ k ih => simp [toBytesBE, ih]

theorem beVal_foldl (init : Nat) (b : List Nat) :
    b.foldl (fun acc x => acc * 256 + x) init = init * 256 ^ b.length + beVal b := by
  induction b generalizing init with
  | nil => simp [beVal]
  | cons x xs ih =>
    have hl : beVal (x :: xs) = x * 256 ^ xs.length + beVal xs := by
      show List.foldl (fun acc x => acc * 256 + x) 0 (x :: xs) = _
      simp only [List.foldl_cons]
      have h0 : 0 * 256 + x = x := by ring
      rw [h0, ih x]
    simp only [List.foldl_cons, List.length_cons]
    rw [ih (init * 256 + x), hl]
    ring

theorem beVal_append (a b : List Nat) :
    beVal (a ++ b) = beVal a * 256 ^ b.length + beVal b := by
  unfold beVal
  rw [List.foldl_append]
  exact beVal_foldl _ b

theorem beVal_toBytesBE {k n : Nat} (h : n < 2 ^ (8 * k)) :
    beVal (toBytesBE k n) = n := by
  induction k generalizing n with
  | zero =>
    simp [toBytesBE, beVal]
    omega
  | succ k ih =>
    have hlt : n / 256 < 2 ^ (8 * k) := by
      have h256 : (256 : Nat) = 2 ^ 8 := by norm_num
      rw [Nat.div_lt_iff_lt_mul (by norm_num : 0 < 256), h256, ← pow_add]
      have : 8 * k + 8 = 8 * (k + 1) := by ring
      rw [this]
      exact h
    have := ih hlt
    simp [toBytesBE, beVal_append, this]
    have : beVal [n % 256] = n % 256 := by simp [beVal]
    rw [this]
    omega

theorem beVal_lt_base (bs : List Nat) (h : ∀ b ∈ bs, b < 256) :
    beVal bs < 256 ^ bs.length := by
  induction bs with
  | nil => simp [beVal]
  | cons x xs ih =>
    have hx : x < 256 := h x (by simp)
    have hxs := ih (fun b hb => h b (by simp [hb]))
    have hsplit : beVal (x :: xs) = x * 256 ^ xs.length + beVal xs := by
      have hc : (x :: xs) = [x] ++ xs := rfl
      rw [hc, beVal_append]
      simp [beVal]
    rw [hsplit, List.length_cons, pow_succ]
    calc x * 256 ^ xs.length + beVal xs
        < x * 256 ^ xs.length + 256 ^ xs.length := by omega
      _ = (x + 1) * 256 ^ xs.length := by ring
      _ ≤ 256 * 256 ^ xs.length := Nat.mul_le_mul_right _ (by omega)
      _ = 256 ^ xs.length * 256 := by ring

theorem pow256_eq (n : Nat) : (256 : Nat) ^ n = 2 ^ (8 * n) := by
  have h256 : (256 : Nat) = 2 ^ 8 := by norm_num
  rw [h256, ← pow_mul]

theorem beVal_lt (bs : List Nat) (h : ∀ b ∈ bs, b < 256) :
    beVal bs < 2 ^ (8 * bs.length) := by
  rw [← pow256_eq]
  exact beVal_lt_base bs h

theorem mem_toBytesBE_lt (k n : Nat) : ∀ b ∈ toBytesBE k n, b < 256 := by
  induction k generalizing n with
  | zero => simp [toBytesBE]
  | succ k ih =>
    intro b hb
    simp [toBytesBE] at hb
    rcases hb with hb | hb
    · exact ih _ b hb
    · subst hb
      exact Nat.mod_lt _ (by norm_num)

theorem takeWhile_until_zero (s suf : List Nat) (hs : 0 ∉ s) :
    (s ++ 0 :: suf).takeWhile (fun b => b != 0) = s := by
  induction s with
  | nil => simp
  | cons x xs ih =>
    have hx : x ≠ 0 := fun h => hs (by simp [h])
    have hxs : 0 ∉ xs := fun h => hs (by simp [h])
    rw [List.cons_append, List.takeWhile_cons]
    simp [hx, ih hxs]

theorem readCString_spec {pre s suf : List Nat} (hs : 0 ∉ s) :
    readCString (pre ++ s ++ 0 :: suf) pre.length = some s := by
  unfold readCString
  have hdrop : (pre ++ s ++ 0 :: suf).drop pre.length = s ++ 0 :: suf := by
    rw [List.append_assoc, List.drop_left]
  rw [hdrop]
  have hmem : (0 : Nat) ∈ s ++ 0 :: suf := by simp
  rw [if_pos hmem]
  rw [takeWhile_until_zero s suf hs]

theorem sliceList_of_extends {a ext : List Nat} {lo hi : Nat} (h : hi ≤ a.length) :
    sliceList (a ++ ext) lo hi = sliceList a lo hi := by
  unfold sliceList
  rw [List.take_append_of_le_length h]

theorem uToBytes_spec {k : Nat} {n : Int} {bs : List Nat} (h : uToBytes k n = some bs) :
    bs.length = k ∧ (beVal bs : Int) = n ∧ 0 ≤ n ∧ n < (2 : Int) ^ (8 * k) := by
  unfold uToBytes at h
  by_cases hc : 0 ≤ n ∧ n < (2 : Int) ^ (8 * k)
  · rw [if_pos hc] at h
    have hbs' : bs = toBytesBE k n.toNat := (Option.some.inj h).symm
    subst hbs'
    refine ⟨length_toBytesBE _ _, ?_, hc.1, hc.2⟩
    have hlt : n.toNat < 2 ^ (8 * k) := by
      have := hc.2
      have h2 : ((2 : Nat) ^ (8 * k) : Int) = (2 : Int) ^ (8 * k) := by push_cast; ring
      omega
    rw [beVal_toBytesBE hlt]
    omega
  · rw [if_neg hc] at h
    exact absurd h (by simp)

theorem sToBytes_spec {k : Nat} {n : Int} {bs : List Nat} (hk : 0 < k)
    (h : sToBytes k n = some bs) :
    bs.length = k ∧ sFromBytes bs = n := by
  unfold sToBytes at h
  by_cases hc : -((2 : Int) ^ (8 * k - 1)) ≤ n ∧ n < (2 : Int) ^ (8 * k - 1)
  · rw [if_pos hc] at h
    have hbs : bs = toBytesBE k (n % ((2 : Int) ^ (8 * k))).toNat :=
      (Option.some.inj h).symm
    subst hbs
    have hpow : (0 : Int) < (2 : Int) ^ (8 * k) := by positivity
    have hem0 : 0 ≤ n % ((2 : Int) ^ (8 * k)) := Int.emod_nonneg n (by omega)
    have hemlt : n % ((2 : Int) ^ (8 * k)) < (2 : Int) ^ (8 * k) :=
      Int.emod_lt_of_pos n hpow
    have hlen := length_toBytesBE k (n % ((2 : Int) ^ (8 * k))).toNat
    refine ⟨hlen, ?_⟩
    have hsplit : 8 * k = (8 * k - 1) + 1 := by omega
    have hdouble : (2 : Int) ^ (8 * k) = 2 * (2 : Int) ^ (8 * k - 1) := by
      nth_rewrite 1 [hsplit]
      rw [pow_succ]
      ring
    have h2 : ((2 : Nat) ^ (8 * k) : Int) = (2 : Int) ^ (8 * k) := by push_cast; ring
    have hNlt : (n % ((2 : Int) ^ (8 * k))).toNat < 2 ^ (8 * k) := by omega
    have hbe : beVal (toBytesBE k (n % ((2 : Int) ^ (8 * k))).toNat)
        = (n % ((2 : Int) ^ (8 * k))).toNat := beVal_toBytesBE hNlt
    unfold sFromBytes
    simp only [hbe, hlen]
    by_cases hn : 0 ≤ n
    · have hem : n % ((2 : Int) ^ (8 * k)) = n := Int.emod_eq_of_lt hn (by omega)
      rw [hem, if_pos (by omega)]
      omega
    · push_neg at hn
      have hem : n % ((2 : Int) ^ (8 * k)) = n + (2 : Int) ^ (8 * k) := by
        have h1 : (n + (2 : Int) ^ (8 * k) * 1) % ((2 : Int) ^ (8 * k))
            = n % ((2 : Int) ^ (8 * k)) := Int.add_mul_emod_self_left n _ 1
        have h3 : (n + (2 : Int) ^ (8 * k)) % ((2 : Int) ^ (8 * k))
            = n + (2 : Int) ^ (8 * k) :=
          Int.emod_eq_of_lt (by omega) (by omega)
        calc n % ((2 : Int) ^ (8 * k))
            = (n + (2 : Int) ^ (8 * k) * 1) % ((2 : Int) ^ (8 * k)) := h1.symm
          _ = (n + (2 : Int) ^ (8 * k)) % ((2 : Int) ^ (8 * k)) := by
              rw [mul_one]
          _ = n + (2 : Int) ^ (8 * k) := h3
      rw [hem, if_neg (by omega)]
      omega
  · rw [if_neg hc] at h
    exact absurd h (by simp)

theorem sliceList_exact (pre mid suf : List Nat) :
    sliceList (pre ++ mid ++ suf) pre.length (pre.length + mid.length) = mid := by
  unfold sliceList
  rw [show pre.length + mid.length = (pre ++ mid).length by simp]
  rw [List.take_left, List.drop_left]

theorem getD_set_ne {l : List Nat} {i j : Nat} (v d : Nat) (h : i ≠ j) :
    (l.set i v).getD j d = l.getD j d := by
  simp [List.getD, List.getElem?_set_ne h]

theorem getD_set_self {l : List Nat} {i : Nat} (v d : Nat) (h : i < l.length) :
    (l.set i v).getD i d = v := by
  simp [List.getD, List.getElem?_set_self, h]

theorem set_getD_self (l : List Nat) (i d : Nat) : l.set i (l.getD i d) = l := by
  induction l generalizing i with
  | nil => rfl
  | cons x xs ih =>
    cases i with
    | zero => simp [List.getD]
    | succ j =>
      show x :: xs.set j (xs.getD j d) = x :: xs
      rw [ih j]

/-! ## Cipher (`wannacri/usm/tools.py`)

Byte arithmetic: all cipher state entries are bytes; Python computes
`(a + b) & 0xFF` and `(a - b) & 0xFF` on nonnegative ints below 256,
which we model as `addB` and `subB`. -/

/-- Model of `(a + b) & 0xFF`. -/
def addB (a b : Nat) : Nat := (a + b) % 256

/-- Model of `(a - b) & 0xFF` for byte arguments `a b < 256` (Python
computes the difference as a signed int and masks; for bytes this is
subtraction mod 256). -/
def subB (a b : Nat) : Nat := (a + 256 - b) % 256

/-- Little-endian byte encoding on exactly `k` bytes, the underlying
total function of `n.to_bytes(k, "little")`. -/
def toBytesLE : Nat → Nat → List Nat
  | 0, _ => []
  | k + 1, n => n % 256 :: toBytesLE k (n / 256)

/-- Model of `generate_keys` (tools.py lines 63-114).  `none` models the
`OverflowError` of `key_num.to_bytes(8, "little")` when the seed does
not fit in 8 bytes.  Returns (video key, audio key). -/
def generateKeys (keyNum : Nat) : Option (List Nat × List Nat) :=
  if keyNum < 2 ^ 64 then
    let ck := toBytesLE 8 keyNum
    let k00 := ck.getD 0 0
    let k01 := ck.getD 1 0
    let k02 := ck.getD 2 0
    let k03 := subB (ck.getD 3 0) 0x34
    let k04 := addB (ck.getD 4 0) 0xF9
    let k05 := (ck.getD 5 0) ^^^ 0x13
    let k06 := addB (ck.getD 6 0) 0x61
    let k07 := k00 ^^^ 0xFF
    let k08 := addB k01 k02
    let k09 := subB k01 k07
    let k0A := k02 ^^^ 0xFF
    let k0B := k01 ^^^ 0xFF
    let k0C := addB k0B k09
    let k0D := subB k08 k03
    let k0E := k0D ^^^ 0xFF
    let k0F := subB k0A k0B
    let k10 := subB k08 k0F
    let k11 := k10 ^^^ k07
    let k12 := k0F ^^^ 0xFF
    let k13 := k03 ^^^ 0x10
    let k14 := subB k04 0x32
    let k15 := addB k05 0xED
    let k16 := k06 ^^^ 0xF3
    let k17 := subB k13 k0F
    let k18 := addB k15 k07
    let k19 := subB 0x21 k13
    let k1A := k14 ^^^ k17
    let k1B := addB k16 k16
    let k1C := addB k17 0x44
    let k1D := addB k03 k04
    let k1E := subB k05 k16
    let k1F := k1D ^^^ k13
    let key := [k00, k01, k02, k03, k04, k05, k06, k07, k08, k09, k0A, k0B,
                k0C, k0D, k0E, k0F, k10, k11, k12, k13, k14, k15, k16, k17,
                k18, k19, k1A, k1B, k1C, k1D, k1E, k1F]
    let audioT : List Nat := [0x55, 0x52, 0x55, 0x43]
    let videoKey := key ++ key.map (fun b => b ^^^ 0xFF)
    let audioKey := (List.range 0x20).map (fun i =>
      if i % 2 ≠ 0 then audioT.getD ((i >>> 1) % 4) 0 else (key.getD i 0) ^^^ 0xFF)
    some (videoKey, audioKey)
  else none

/-- Model of the loop `rolling[i % 0x20] ^= data[0x140 + i];
data[0x40 + i] ^= rolling[i % 0x20]` iterated `n` times from index `i`.
This loop appears verbatim twice in the source: as the first loop of
`encrypt_video_packet` and as the second loop of
`decrypt_video_packet`.  Arguments: data, rolling, start index, count. -/
def videoPassA : List Nat → List Nat → Nat → Nat → List Nat × List Nat
  | d, r, _, 0 => (d, r)
  | d, r, i, n + 1 =>
    let r1 := r.set (i % 0x20) ((r.getD (i % 0x20) 0) ^^^ (d.getD (0x140 + i) 0))
    let d1 := d.set (0x40 + i) ((d.getD (0x40 + i) 0) ^^^ (r1.getD (i % 0x20) 0))
    videoPassA d1 r1 (i + 1) n

/-- Model of the second loop of `encrypt_video_packet` (tools.py lines
154-157): `plainbyte = data[0x40+i]; data[0x40+i] ^= rolling[0x20 + i %
0x20]; rolling[0x20 + i % 0x20] = plainbyte ^ video_key[0x20 + i %
0x20]`. -/
def videoPassBEnc (key : List Nat) : List Nat → List Nat → Nat → Nat → List Nat × List Nat
  | d, r, _, 0 => (d, r)
  | d, r, i, n + 1 =>
    let j := 0x20 + i % 0x20
    let plain := d.getD (0x40 + i) 0
    let d1 := d.set (0x40 + i) (plain ^^^ (r.getD j 0))
    let r1 := r.set j (plain ^^^ (key.getD j 0))
    videoPassBEnc key d1 r1 (i + 1) n

/-- Model of the first loop of `decrypt_video_packet` (tools.py lines
128-130): `data[0x40+i] ^= rolling[0x20 + i % 0x20]; rolling[0x20 + i %
0x20] = data[0x40+i] ^ video_key[0x20 + i % 0x20]`. -/
def videoPassBDec (key : List Nat) : List Nat → List Nat → Nat → Nat → List Nat × List Nat
  | d, r, _, 0 => (d, r)
  | d, r, i, n + 1 =>
    let j := 0x20 + i % 0x20
    let d1 := d.set (0x40 + i) ((d.getD (0x40 + i) 0) ^^^ (r.getD j 0))
    let r1 := r.set j ((d1.getD (0x40 + i) 0) ^^^ (key.getD j 0))
    videoPassBDec key d1 r1 (i + 1) n

/-- Model of `encrypt_video_packet` (tools.py lines 139-159).  `none`
models the `ValueError` raised when the key is shorter than 0x40
bytes. -/
def encryptVideoPacket (packet videoKey : List Nat) : Option (List Nat) :=
  if videoKey.length < 0x40 then none
  else some (
    if 0x240 ≤ packet.length then
      let e := packet.length - 0x40
      let p1 := videoPassA packet videoKey 0 0x100
      let p2 := videoPassBEnc videoKey p1.1 p1.2 0x100 (e - 0x100)
      p2.1
    else packet)

/-- Model of `decrypt_video_packet` (tools.py lines 117-136).  The
source computes `encrypted_part_size = len(data) - 0x40` (possibly
negative in Python) and only transforms when it is at least 0x200;
truncated `Nat` subtraction gives the same branch. -/
def decryptVideoPacket (packet videoKey : List Nat) : Option (List Nat) :=
  if videoKey.length < 0x40 then none
  else some (
    let e := packet.length - 0x40
    if 0x200 ≤ e then
      let p1 := videoPassBDec videoKey packet videoKey 0x100 (e - 0x100)
      let p2 := videoPassA p1.1 p1.2 0 0x100
      p2.1
    else packet)

/-- Model of the loop `data[i] ^= key[i % 0x20]` of
`_crypt_audio_packet`; `none` models the `IndexError` raised by
`key[i % 0x20]` when the key is too short. -/
def cryptAudioLoop (key : List Nat) : List Nat → Nat → Nat → Option (List Nat)
  | d, _, 0 => some d
  | d, i, n + 1 =>
    if i % 0x20 < key.length then
      cryptAudioLoop key (d.set i ((d.getD i 0) ^^^ (key.getD (i % 0x20) 0))) (i + 1) n
    else none

/-- Model of `_crypt_audio_packet` (tools.py lines 162-171): transforms
bytes from offset 0x140 on, when the packet is longer than 0x140 bytes.
The source performs no key-length validation. -/
def cryptAudioPacket (packet key : List Nat) : Option (List Nat) :=
  if 0x140 < packet.length then cryptAudioLoop key packet 0x140 (packet.length - 0x140)
  else some packet

/-! ### Cipher lemmas -/

theorem xorCancel (a b : Nat) : (a ^^^ b) ^^^ b = a := by
  rw [Nat.xor_assoc, Nat.xor_self, Nat.xor_zero]

theorem videoPassA_length : ∀ n i (d r : List Nat),
    (videoPassA d r i n).1.length = d.length ∧ (videoPassA d r i n).2.length = r.length := by
  intro n
  induction n with
  | zero => intro i d r; exact ⟨rfl, rfl⟩
  | succ n ih =>
    intro i d r
    simp only [videoPassA]
    obtain ⟨h1, h2⟩ := ih (i + 1)
      (d.set (0x40 + i) ((d.getD (0x40 + i) 0) ^^^
        ((r.set (i % 0x20) ((r.getD (i % 0x20) 0) ^^^ (d.getD (0x140 + i) 0))).getD (i % 0x20) 0)))
      (r.set (i % 0x20) ((r.getD (i % 0x20) 0) ^^^ (d.getD (0x140 + i) 0)))
    rw [h1, h2]
    simp

theorem videoPassBEnc_length (key : List Nat) : ∀ n i (d r : List Nat),
    (videoPassBEnc key d r i n).1.length = d.length ∧
    (videoPassBEnc key d r i n).2.length = r.length := by
  intro n
  induction n with
  | zero => intro i d r; exact ⟨rfl, rfl⟩
  | succ n ih =>
    intro i d r
    simp only [videoPassBEnc]
    obtain ⟨h1, h2⟩ := ih (i + 1)
      (d.set (0x40 + i) ((d.getD (0x40 + i) 0) ^^^ (r.getD (0x20 + i % 0x20) 0)))
      (r.set (0x20 + i % 0x20) ((d.getD (0x40 + i) 0) ^^^ (key.getD (0x20 + i % 0x20) 0)))
    rw [h1, h2]
    simp

theorem videoPassBDec_length (key : List Nat) : ∀ n i (d r : List Nat),
    (videoPassBDec key d r i n).1.length = d.length ∧
    (videoPassBDec key d r i n).2.length = r.length := by
  intro n
  induction n with
  | zero => intro i d r; exact ⟨rfl, rfl⟩
  | succ n ih =>
    intro i d r
    simp only [videoPassBDec]
    obtain ⟨h1, h2⟩ := ih (i + 1)
      ((d.set (0x40 + i) ((d.getD (0x40 + i) 0) ^^^ (r.getD (0x20 + i % 0x20) 0))))
      (r.set (0x20 + i % 0x20)
        (((d.set (0x40 + i) ((d.getD (0x40 + i) 0) ^^^ (r.getD (0x20 + i % 0x20) 0))).getD
            (0x40 + i) 0) ^^^ (key.getD (0x20 + i % 0x20) 0)))
    rw [h1, h2]
    simp

theorem videoPassA_preserve_lo : ∀ n i (d r : List Nat) m, m < 0x40 + i →
    (videoPassA d r i n).1.getD m 0 = d.getD m 0 := by
  intro n
  induction n with
  | zero => intro i d r m _; rfl
  | succ n ih =>
    intro i d r m hm
    simp only [videoPassA]
    rw [ih (i + 1) _ _ m (by omega)]
    exact getD_set_ne _ _ (by omega)

theorem videoPassA_preserve_hi : ∀ n i (d r : List Nat) m, 0x140 ≤ m → i + n ≤ 0x100 →
    (videoPassA d r i n).1.getD m 0 = d.getD m 0 := by
  intro n
  induction n with
  | zero => intro i d r m _ _; rfl
  | succ n ih =>
    intro i d r m hm hin
    simp only [videoPassA]
    rw [ih (i + 1) _ _ m hm (by omega)]
    exact getD_set_ne _ _ (by omega)

theorem videoPassA_r_hi : ∀ n i (d r : List Nat) j, 0x20 ≤ j →
    (videoPassA d r i n).2.getD j 0 = r.getD j 0 := by
  intro n
  induction n with
  | zero => intro i d r j _; rfl
  | succ n ih =>
    intro i d r j hj
    simp only [videoPassA]
    rw [ih (i + 1) _ _ j hj]
    exact getD_set_ne _ _ (by have := Nat.mod_lt i (show 0 < 0x20 by norm_num); omega)

theorem videoPassA_frame : ∀ n i (d r : List Nat) m v, m < 0x40 + i →
    videoPassA (d.set m v) r i n
      = ((videoPassA d r i n).1.set m v, (videoPassA d r i n).2) := by
  intro n
  induction n with
  | zero => intro i d r m v _; rfl
  | succ n ih =>
    intro i d r m v hm
    simp only [videoPassA]
    rw [getD_set_ne _ _ (show m ≠ 0x140 + i by omega)]
    rw [getD_set_ne _ _ (show m ≠ 0x40 + i by omega)]
    rw [List.set_comm _ _ _ (show m ≠ 0x40 + i by omega)]
    exact ih (i + 1) _ _ m v (by omega)

theorem videoPassBEnc_preserve_lo (key : List Nat) : ∀ n i (d r : List Nat) m,
    m < 0x40 + i → (videoPassBEnc key d r i n).1.getD m 0 = d.getD m 0 := by
  intro n
  induction n with
  | zero => intro i d r m _; rfl
  | succ n ih =>
    intro i d r m hm
    simp only [videoPassBEnc]
    rw [ih (i + 1) _ _ m (by omega)]
    exact getD_set_ne _ _ (by omega)

theorem videoPassBEnc_frame (key : List Nat) : ∀ n i (d r : List Nat) m v, m < 0x40 + i →
    videoPassBEnc key (d.set m v) r i n
      = ((videoPassBEnc key d r i n).1.set m v, (videoPassBEnc key d r i n).2) := by
  intro n
  induction n with
  | zero => intro i d r m v _; rfl
  | succ n ih =>
    intro i d r m v hm
    simp only [videoPassBEnc]
    rw [getD_set_ne _ _ (show m ≠ 0x40 + i by omega)]
    rw [List.set_comm _ _ _ (show m ≠ 0x40 + i by omega)]
    exact ih (i + 1) _ _ m v (by omega)

theorem videoPassBDec_r_lo (key : List Nat) : ∀ n i (d r : List Nat) j, j < 0x20 →
    (videoPassBDec key d r i n).2.getD j 0 = r.getD j 0 := by
  intro n
  induction n with
  | zero => intro i d r j _; rfl
  | succ n ih =>
    intro i d r j hj
    simp only [videoPassBDec]
    rw [ih (i + 1) _ _ j hj]
    exact getD_set_ne _ _ (by omega)

theorem videoPassB_inv (key : List Nat) : ∀ n i (d re rd : List Nat),
    (∀ j, 0x20 ≤ j → j < 0x40 → re.getD j 0 = rd.getD j 0) →
    0x40 ≤ re.length → 0x40 ≤ rd.length → 0x40 + i + n ≤ d.length →
    (videoPassBDec key (videoPassBEnc key d re i n).1 rd i n).1 = d := by
  intro n
  induction n with
  | zero => intro i d re rd _ _ _ _; rfl
  | succ n ih =>
    intro i d re rd hagree hre hrd hd
    have hmod : i % 0x20 < 0x20 := Nat.mod_lt i (by norm_num)
    set j := 0x20 + i % 0x20 with hj
    have hjlo : 0x20 ≤ j := by omega
    have hjhi : j < 0x40 := by omega
    set plain := d.getD (0x40 + i) 0 with hplain
    set d1 := d.set (0x40 + i) (plain ^^^ (re.getD j 0)) with hd1
    set re1 := re.set j (plain ^^^ (key.getD j 0)) with hre1
    have henc : (videoPassBEnc key d re (i) (n+1)) = videoPassBEnc key d1 re1 (i+1) n := by
      simp only [videoPassBEnc]
    rw [henc]
    set D := (videoPassBEnc key d1 re1 (i + 1) n).1 with hD
    have hDlen : D.length = d.length := by
      rw [hD, (videoPassBEnc_length key n (i + 1) d1 re1).1, hd1]
      simp
    have hdec : videoPassBDec key D rd i (n + 1)
        = videoPassBDec key (D.set (0x40 + i) ((D.getD (0x40 + i) 0) ^^^ (rd.getD j 0)))
            (rd.set j (((D.set (0x40 + i) ((D.getD (0x40 + i) 0) ^^^ (rd.getD j 0))).getD
              (0x40 + i) 0) ^^^ (key.getD j 0))) (i + 1) n := by
      simp only [videoPassBDec]
    rw [hdec]
    have hf1 : D.getD (0x40 + i) 0 = d1.getD (0x40 + i) 0 :=
      videoPassBEnc_preserve_lo key n (i + 1) d1 re1 (0x40 + i) (by omega)
    have hf2 : d1.getD (0x40 + i) 0 = plain ^^^ (re.getD j 0) := by
      rw [hd1]
      exact getD_set_self _ _ (by omega)
    have hf3 : rd.getD j 0 = re.getD j 0 := (hagree j hjlo hjhi).symm
    have hdd1 : D.set (0x40 + i) ((D.getD (0x40 + i) 0) ^^^ (rd.getD j 0))
        = D.set (0x40 + i) plain := by
      rw [hf1, hf2, hf3, xorCancel]
    rw [hdd1]
    have hf4 : (D.set (0x40 + i) plain).getD (0x40 + i) 0 = plain :=
      getD_set_self _ _ (by omega)
    rw [hf4]
    have hframe : D.set (0x40 + i) plain
        = (videoPassBEnc key (d1.set (0x40 + i) plain) re1 (i + 1) n).1 := by
      rw [videoPassBEnc_frame key n (i + 1) d1 re1 (0x40 + i) plain (by omega)]
    have hdset : d1.set (0x40 + i) plain = d := by
      rw [hd1, List.set_set, hplain, set_getD_self]
    rw [hframe, hdset]
    apply ih (i + 1) d re1 (rd.set j (plain ^^^ (key.getD j 0)))
    · intro j' hlo hhi
      by_cases hj' : j' = j
      · subst hj'
        rw [hre1, getD_set_self _ _ (by omega), getD_set_self _ _ (by omega)]
      · rw [hre1, getD_set_ne _ _ (Ne.symm hj'), getD_set_ne _ _ (Ne.symm hj')]
        exact hagree j' hlo hhi
    · rw [hre1]; simp [hre]
    · simp [hrd]
    · omega

theorem videoPassA_inv : ∀ n i (d re rd : List Nat),
    (∀ j, j < 0x20 → re.getD j 0 = rd.getD j 0) →
    i + n ≤ 0x100 → 0x240 ≤ d.length → 0x20 ≤ re.length → 0x20 ≤ rd.length →
    (videoPassA (videoPassA d re i n).1 rd i n).1 = d := by
  intro n
  induction n with
  | zero => intro i d re rd _ _ _ _ _; rfl
  | succ n ih =>
    intro i d re rd hagree hin hd hre hrd
    have hmod : i % 0x20 < 0x20 := Nat.mod_lt i (by norm_num)
    set re1 := re.set (i % 0x20) ((re.getD (i % 0x20) 0) ^^^ (d.getD (0x140 + i) 0)) with hre1
    set d1 := d.set (0x40 + i) ((d.getD (0x40 + i) 0) ^^^ (re1.getD (i % 0x20) 0)) with hd1
    have henc : videoPassA d re i (n + 1) = videoPassA d1 re1 (i + 1) n := by
      simp only [videoPassA]
    rw [henc]
    set D := (videoPassA d1 re1 (i + 1) n).1 with hD
    have hDlen : D.length = d.length := by
      rw [hD, (videoPassA_length n (i + 1) d1 re1).1, hd1]
      simp
    have hdec : videoPassA D rd i (n + 1)
        = videoPassA
            (D.set (0x40 + i) ((D.getD (0x40 + i) 0) ^^^
              ((rd.set (i % 0x20) ((rd.getD (i % 0x20) 0) ^^^ (D.getD (0x140 + i) 0))).getD
                (i % 0x20) 0)))
            (rd.set (i % 0x20) ((rd.getD (i % 0x20) 0) ^^^ (D.getD (0x140 + i) 0)))
            (i + 1) n := by
      simp only [videoPassA]
    rw [hdec]
    have hg1 : D.getD (0x140 + i) 0 = d.getD (0x140 + i) 0 := by
      rw [hD, videoPassA_preserve_hi n (i + 1) d1 re1 (0x140 + i) (by omega) (by omega)]
      rw [hd1]
      exact getD_set_ne _ _ (by omega)
    have hg2 : rd.getD (i % 0x20) 0 = re.getD (i % 0x20) 0 := (hagree _ hmod).symm
    set rd1 := rd.set (i % 0x20) ((rd.getD (i % 0x20) 0) ^^^ (D.getD (0x140 + i) 0)) with hrd1
    have hrdval : rd1.getD (i % 0x20) 0 = re1.getD (i % 0x20) 0 := by
      rw [hrd1, hre1, getD_set_self _ _ (by omega), getD_set_self _ _ (by omega),
        hg1, hg2]
    have hg3 : D.getD (0x40 + i) 0 = (d.getD (0x40 + i) 0) ^^^ (re1.getD (i % 0x20) 0) := by
      rw [hD, videoPassA_preserve_lo n (i + 1) d1 re1 (0x40 + i) (by omega), hd1]
      exact getD_set_self _ _ (by omega)
    have hdd1 : D.set (0x40 + i) ((D.getD (0x40 + i) 0) ^^^ (rd1.getD (i % 0x20) 0))
        = D.set (0x40 + i) (d.getD (0x40 + i) 0) := by
      rw [hrdval, hg3, xorCancel]
    rw [hdd1]
    have hframe : D.set (0x40 + i) (d.getD (0x40 + i) 0)
        = (videoPassA (d1.set (0x40 + i) (d.getD (0x40 + i) 0)) re1 (i + 1) n).1 := by
      rw [videoPassA_frame n (i + 1) d1 re1 (0x40 + i) _ (by omega)]
    have hdset : d1.set (0x40 + i) (d.getD (0x40 + i) 0) = d := by
      rw [hd1, List.set_set, set_getD_self]
    rw [hframe, hdset]
    apply ih (i + 1) d re1 rd1
    · intro j' hj'
      by_cases hc : j' = i % 0x20
      · subst hc
        rw [hre1, hrd1, getD_set_self _ _ (by omega), getD_set_self _ _ (by omega),
          hg1, hg2]
      · rw [hre1, hrd1, getD_set_ne _ _ (Ne.symm hc), getD_set_ne _ _ (Ne.symm hc)]
        exact hagree j' hj'
    · omega
    · exact hd
    · rw [hre1]; simp [hre]
    · rw [hrd1]; simp [hrd]

theorem cryptAudioLoop_length (key : List Nat) : ∀ n i (d D : List Nat),
    cryptAudioLoop key d i n = some D → D.length = d.length := by
  intro n
  induction n with
  | zero =>
    intro i d D h
    simp only [cryptAudioLoop] at h
    rw [← Option.some.inj h]
  | succ n ih =>
    intro i d D h
    simp only [cryptAudioLoop] at h
    by_cases hc : i % 0x20 < key.length
    · rw [if_pos hc] at h
      have := ih (i + 1) _ _ h
      simpa using this
    · rw [if_neg hc] at h
      exact absurd h (by simp)

theorem cryptAudioLoop_preserve (key : List Nat) : ∀ n i (d D : List Nat) m, m < i →
    cryptAudioLoop key d i n = some D → D.getD m 0 = d.getD m 0 := by
  intro n
  induction n with
  | zero =>
    intro i d D m _ h
    simp only [cryptAudioLoop] at h
    rw [← Option.some.inj h]
  | succ n ih =>
    intro i d D m hm h
    simp only [cryptAudioLoop] at h
    by_cases hc : i % 0x20 < key.length
    · rw [if_pos hc] at h
      rw [ih (i + 1) _ _ m (by omega) h]
      exact getD_set_ne _ _ (by omega)
    · rw [if_neg hc] at h
      exact absurd h (by simp)

theorem cryptAudioLoop_frame (key : List Nat) : ∀ n i (d : List Nat) m v, m < i →
    cryptAudioLoop key (d.set m v) i n
      = (cryptAudioLoop key d i n).map (fun x => x.set m v) := by
  intro n
  induction n with
  | zero => intro i d m v _; rfl
  | succ n ih =>
    intro i d m v hm
    simp only [cryptAudioLoop]
    by_cases hc : i % 0x20 < key.length
    · rw [if_pos hc, if_pos hc]
      rw [getD_set_ne _ _ (show m ≠ i by omega)]
      rw [List.set_comm _ _ _ (show m ≠ i by omega)]
      exact ih (i + 1) _ m v (by omega)
    · rw [if_neg hc, if_neg hc]
      rfl

theorem cryptAudioLoop_inv (key : List Nat) : ∀ n i (d : List Nat),
    0x20 ≤ key.length → i + n ≤ d.length →
    ∃ D, cryptAudioLoop key d i n = some D ∧ D.length = d.length ∧
      cryptAudioLoop key D i n = some d := by
  intro n
  induction n with
  | zero => intro i d _ _; exact ⟨d, rfl, rfl, rfl⟩
  | succ n ih =>
    intro i d hkey hlen
    have hc : i % 0x20 < key.length :=
      lt_of_lt_of_le (Nat.mod_lt i (by norm_num)) hkey
    set d1 := d.set i ((d.getD i 0) ^^^ (key.getD (i % 0x20) 0)) with hd1
    obtain ⟨D, hD, hDlen, hDinv⟩ := ih (i + 1) d1 hkey (by rw [hd1]; simp; omega)
    refine ⟨D, ?_, ?_, ?_⟩
    · simp only [cryptAudioLoop]
      rw [if_pos hc]
      exact hD
    · rw [hDlen, hd1]; simp
    · simp only [cryptAudioLoop]
      rw [if_pos hc]
      have hval : D.getD i 0 = (d.getD i 0) ^^^ (key.getD (i % 0x20) 0) := by
        rw [cryptAudioLoop_preserve key n (i + 1) d1 D i (by omega) hD, hd1]
        exact getD_set_self _ _ (by omega)
      rw [hval, xorCancel]
      rw [cryptAudioLoop_frame key n (i + 1) D i (d.getD i 0) (by omega)]
      rw [hDinv]
      simp only [Option.map_some']
      rw [hd1, List.set_set, set_getD_self]

theorem cryptAudioLoop_none_iff (key : List Nat) : ∀ n i (d : List Nat),
    (cryptAudioLoop key d i n = none ↔ ∃ t, t < n ∧ key.length ≤ (i + t) % 0x20) := by
  intro n
  induction n with
  | zero =>
    intro i d
    simp [cryptAudioLoop]
  | succ n ih =>
    intro i d
    simp only [cryptAudioLoop]
    by_cases hc : i % 0x20 < key.length
    · rw [if_pos hc, ih (i + 1)]
      constructor
      · rintro ⟨t, ht, hkey⟩
        exact ⟨t + 1, by omega, by rw [show i + (t + 1) = i + 1 + t by omega]; exact hkey⟩
      · rintro ⟨t, ht, hkey⟩
        cases t with
        | zero => simp at hkey; omega
        | succ t =>
          exact ⟨t, by omega, by rw [show i + 1 + t = i + (t + 1) by omega]; exact hkey⟩
    · rw [if_neg hc]
      simp only [true_iff]
      exact ⟨0, by omega, by simpa using by omega⟩

/-- C3: for every packet and a 0x40-byte video key,
`decrypt_video_packet(encrypt_video_packet(p, k), k) == p`; and for every
packet and a 0x20-byte audio key, `_crypt_audio_packet` is an involution. -/
theorem claim3_cipher_roundtrip (p pa vk ak : List Nat)
    (hv : vk.length = 0x40) (ha : ak.length = 0x20) :
    (encryptVideoPacket p vk).bind (fun c => decryptVideoPacket c vk) = some p ∧
    (cryptAudioPacket pa ak).bind (fun c => cryptAudioPacket c ak) = some pa := by
  constructor
  · have hnl : ¬ (vk.length < 0x40) := by omega
    unfold encryptVideoPacket
    rw [if_neg hnl]
    by_cases hlen : 0x240 ≤ p.length
    · rw [if_pos hlen]
      set p1 := videoPassA p vk 0 0x100 with hp1
      set c := (videoPassBEnc vk p1.1 p1.2 0x100 (p.length - 0x40 - 0x100)).1 with hc
      have hp1len : p1.1.length = p.length := (videoPassA_length 0x100 0 p vk).1
      have hp12len : p1.2.length = vk.length := (videoPassA_length 0x100 0 p vk).2
      have hclen : c.length = p.length := by
        rw [hc, (videoPassBEnc_length vk _ _ _ _).1, hp1len]
      simp only [Option.some_bind]
      unfold decryptVideoPacket
      rw [if_neg hnl]
      rw [hclen]
      rw [if_pos (show 0x200 ≤ p.length - 0x40 by omega)]
      set q1 := videoPassBDec vk c vk 0x100 (p.length - 0x40 - 0x100) with hq1
      have hq11 : q1.1 = p1.1 := by
        rw [hq1, hc]
        exact videoPassB_inv vk (p.length - 0x40 - 0x100) 0x100 p1.1 p1.2 vk
          (fun j hlo _ => videoPassA_r_hi 0x100 0 p vk j hlo)
          (by omega) (by omega) (by omega)
      have hq12len : q1.2.length = vk.length := (videoPassBDec_length vk _ _ _ _).2
      have hq12 : ∀ j, j < 0x20 → vk.getD j 0 = q1.2.getD j 0 := by
        intro j hj
        rw [hq1, videoPassBDec_r_lo vk _ _ _ _ j hj]
      have hgoal : (videoPassA q1.1 q1.2 0 0x100).1 = p := by
        rw [hq11, hp1]
        exact videoPassA_inv 0x100 0 p vk q1.2 hq12 (by omega) (by omega) (by omega)
          (by omega)
      show some ((videoPassA q1.1 q1.2 0 0x100).1) = some p
      rw [hgoal]
    · rw [if_neg hlen]
      simp only [Option.some_bind]
      unfold decryptVideoPacket
      rw [if_neg hnl]
      rw [if_neg (show ¬ (0x200 ≤ p.length - 0x40) by omega)]
  · unfold cryptAudioPacket
    by_cases hlen : 0x140 < pa.length
    · rw [if_pos hlen]
      obtain ⟨D, hD, hDlen, hDinv⟩ :=
        cryptAudioLoop_inv ak (pa.length - 0x140) 0x140 pa (by omega) (by omega)
      rw [hD]
      simp only [Option.some_bind]
      rw [if_pos (by omega : 0x140 < D.length), hDlen, hDinv]
    · rw [if_neg hlen]
      simp only [Option.some_bind]
      rw [if_neg hlen]

/-- C3 witness. -/
theorem claim3_witness :
    (List.replicate 0x40 5).length = 0x40 ∧ (List.replicate 0x20 7).length = 0x20 ∧
    ((encryptVideoPacket [1, 2, 3] (List.replicate 0x40 5)).bind
        (fun c => decryptVideoPacket c (List.replicate 0x40 5)) = some [1, 2, 3] ∧
      (cryptAudioPacket [9] (List.replicate 0x20 7)).bind
        (fun c => cryptAudioPacket c (List.replicate 0x20 7)) = some [9]) :=
  ⟨by decide, by decide,
    claim3_cipher_roundtrip [1, 2, 3] [9] _ _ (by decide) (by decide)⟩

/-- C4 counterexample: the claim states that byte 4 of the seed-0 video
key is 0x07, but `generate_keys` computes `key[0x04] = (cipher_key[4] +
0xF9) & 0xFF`, giving 0xF9 at seed 0. -/
theorem claim4_cex :
    (generateKeys 0).map (fun z => z.1.getD 4 0) = some 0xF9 ∧ (0xF9 : Nat) ≠ 0x07 := by
  constructor
  · decide
  · decide

/-- C4 (amended): at seed 0 the video key starts
`00 00 00 CC F9 13 61 FF` (byte 4 is 0xF9, not 0x07 as claimed), the
audio key has byte 0 = 0xFF and byte 1 = the ASCII character U. -/
theorem claim4_keys_seed0 :
    (generateKeys 0).map (fun z => (z.1.take 8, z.2.getD 0 0, z.2.getD 1 0))
      = some ([0x00, 0x00, 0x00, 0xCC, 0xF9, 0x13, 0x61, 0xFF], 0xFF, 0x55) := by
  decide

/-- C7 counterexample: the claim states the transforms fail exactly when
the key has the wrong length.  A 0x41-byte video key (wrong length) is
accepted by `encrypt_video_packet` (the source only rejects keys
shorter than 0x40), and an empty audio key (wrong length) is accepted by
`_crypt_audio_packet` on a short packet (the source never validates the
audio key). -/
theorem claim7_cex :
    encryptVideoPacket [] (List.replicate 0x41 0) = some [] ∧
    cryptAudioPacket [] [] = some [] := by
  constructor
  · decide
  · decide

/-- C7 (amended): the video transforms fail exactly when the key is
SHORTER than 0x40 bytes (longer keys are accepted); the audio transform
performs no key validation and fails (with an IndexError, not an
invalid-key error) exactly when the packet is longer than 0x140 bytes
and the key is shorter than min(0x20, len(packet) - 0x140). -/
theorem claim7_failure_conditions (p k : List Nat) :
    (encryptVideoPacket p k = none ↔ k.length < 0x40) ∧
    (decryptVideoPacket p k = none ↔ k.length < 0x40) ∧
    (cryptAudioPacket p k = none ↔
      0x140 < p.length ∧ k.length < min 0x20 (p.length - 0x140)) := by
  refine ⟨?_, ?_, ?_⟩
  · by_cases h : k.length < 0x40 <;> simp [encryptVideoPacket, h]
  · by_cases h : k.length < 0x40 <;> simp [decryptVideoPacket, h]
  · unfold cryptAudioPacket
    by_cases hp : 0x140 < p.length
    · rw [if_pos hp]
      rw [cryptAudioLoop_none_iff]
      constructor
      · rintro ⟨t, ht, hkey⟩
        have hmod : (0x140 + t) % 0x20 = t % 0x20 := by
          omega
        rw [hmod] at hkey
        have h1 : t % 0x20 < 0x20 := Nat.mod_lt t (by norm_num)
        have h2 : t % 0x20 ≤ t := Nat.mod_le t _
        exact ⟨hp, by omega⟩
      · rintro ⟨-, hkey⟩
        refine ⟨k.length, by omega, ?_⟩
        have hmod : (0x140 + k.length) % 0x20 = k.length % 0x20 := by
          omega
        rw [hmod, Nat.mod_eq_of_lt (by omega)]
    · rw [if_neg hp]
      simp [hp]

/-! ## Page codec (`wannacri/usm/page.py`)

`UsmPage` models the Python class of the same name: an insertion-ordered
mapping (Python dict) from key byte strings to typed elements.  The
model keeps the ten element types that `pack_pages` and `get_pages`
handle with integer, string or bytes values.  The two floating-point
tags are outside the embedding: F64 (0x19) is rejected by both the
encoder and the decoder of the source (no `elif` branch, so the final
`raise ValueError` fires), and F32 (0x18) carries IEEE floats, which
this shallow embedding does not model (the source decoder also returns
`struct.unpack` ​tuples for F32 rather than floats). -/

inductive ElementType
  | CHAR
  | UCHAR
  | SHORT
  | USHORT
  | INT
  | UINT
  | LONGLONG
  | ULONGLONG
  | STRING
  | BYTES
deriving DecidableEq, Repr

/-- Wire type tags of `types.py` (`ElementType` enum values). -/
def typeTag : ElementType → Nat
  | .CHAR => 0x10
  | .UCHAR => 0x11
  | .SHORT => 0x12
  | .USHORT => 0x13
  | .INT => 0x14
  | .UINT => 0x15
  | .LONGLONG => 0x16
  | .ULONGLONG => 0x17
  | .STRING => 0x1A
  | .BYTES => 0x1B

/-- Model of `ElementType.from_int` combined with the decoder's type
dispatch: unknown tags and the two float tags yield `none` (see the
section comment). -/
def elemTypeFromTag (t : Nat) : Option ElementType :=
  if t = 0x10 then some .CHAR
  else if t = 0x11 then some .UCHAR
  else if t = 0x12 then some .SHORT
  else if t = 0x13 then some .USHORT
  else if t = 0x14 then some .INT
  else if t = 0x15 then some .UINT
  else if t = 0x16 then some .LONGLONG
  else if t = 0x17 then some .ULONGLONG
  else if t = 0x1A then some .STRING
  else if t = 0x1B then some .BYTES
  else none

/-- Modelled from the spec: `ArrayType` is imported by `page.py` from
`types.py` but is absent from the sources under src/ (types.py instead
has `ElementOccurrence`); per the spec (section 4.2), occurrence 1 =
recurring value stored in the shared/schema array, 2 = non-recurring
value stored in the unique array.  `ElementOccurrence` in types.py
agrees: RECURRING = 1, NON_RECURRING = 2. -/
def arrayTypeShared : Nat := 1

/-- Modelled from the spec: see `arrayTypeShared`. -/
def arrayTypeUnique : Nat := 2

/-- Element value: Python `int`, `str` (as encoded bytes) or `bytes`. -/
inductive EValue
  | vint (n : Int)
  | vstr (s : List Nat)
  | vbytes (b : List Nat)
deriving DecidableEq, Repr

/-- Model of the `Element` named tuple of page.py. -/
structure Element where
  val : EValue
  type : ElementType
deriving DecidableEq, Repr

/-- Model of `UsmPage`: page name plus insertion-ordered dict. -/
structure UsmPage where
  name : List Nat
  dict : List (List Nat × Element)
deriving DecidableEq, Repr

/-- ASCII bytes of the key string that `UsmPage.update` treats
specially. -/
def filenameKey : List Nat := [0x66, 0x69, 0x6C, 0x65, 0x6E, 0x61, 0x6D, 0x65]

/-- Model of `element.replace("\\", "/")` on the byte encoding of a
string (0x5C is the backslash, 0x2F the forward slash). -/
def replaceBackslash (s : List Nat) : List Nat :=
  s.map (fun b => if b = 0x5C then 0x2F else b)

/-- Model of Python `dict.update({name: element})`: replaces the value
in place if the key exists, else appends. -/
def dictUpdate : List (List Nat × Element) → List Nat → Element → List (List Nat × Element)
  | [], k, e => [(k, e)]
  | (k0, e0) :: rest, k, e =>
    if k0 = k then (k0, e) :: rest else (k0, e0) :: dictUpdate rest k e

/-- Model of `UsmPage.update` (page.py lines 29-34): a value stored
under the key `filename` has every backslash replaced by a forward
slash first.  `none` models the `AttributeError`/`TypeError` that
`element.replace("\\", "/")` raises when the value is not a string. -/
def pageUpdate (pg : UsmPage) (name : List Nat) (t : ElementType) (v : EValue) :
    Option UsmPage :=
  if name = filenameKey then
    match v with
    | .vstr s => some ⟨pg.name, dictUpdate pg.dict name ⟨.vstr (replaceBackslash s), t⟩⟩
    | _ => none
  else some ⟨pg.name, dictUpdate pg.dict name ⟨v, t⟩⟩

/-- Model of `page[key]` / `page.get(key)` on the dict. -/
def dictGet : List (List Nat × Element) → List Nat → Option Element
  | [], _ => none
  | (k0, e0) :: rest, k => if k0 = k then some e0 else dictGet rest k

/-- Encoded size in bytes of each element type (page.py `element_size`). -/
def elemSize : ElementType → Nat
  | .CHAR => 1
  | .UCHAR => 1
  | .SHORT => 2
  | .USHORT => 2
  | .INT => 4
  | .UINT => 4
  | .LONGLONG => 8
  | .ULONGLONG => 8
  | .STRING => 4
  | .BYTES => 8

/-- Model of the per-value emission of `pack_pages` (lines 300-330):
given the element and the current string/byte pools, produce the value
bytes and the updated pools.  `none` models the exceptions raised on a
type/value mismatch (`AttributeError`/`TypeError`) or an out-of-range
`to_bytes`. -/
def encValue (t : ElementType) (v : EValue) (sa ba : List Nat) :
    Option (List Nat × List Nat × List Nat) :=
  match t, v with
  | .CHAR, .vint n => (sToBytes 1 n).map (fun bs => (bs, sa, ba))
  | .UCHAR, .vint n => (uToBytes 1 n).map (fun bs => (bs, sa, ba))
  | .SHORT, .vint n => (sToBytes 2 n).map (fun bs => (bs, sa, ba))
  | .USHORT, .vint n => (uToBytes 2 n).map (fun bs => (bs, sa, ba))
  | .INT, .vint n => (sToBytes 4 n).map (fun bs => (bs, sa, ba))
  | .UINT, .vint n => (uToBytes 4 n).map (fun bs => (bs, sa, ba))
  | .LONGLONG, .vint n => (sToBytes 8 n).map (fun bs => (bs, sa, ba))
  | .ULONGLONG, .vint n => (uToBytes 8 n).map (fun bs => (bs, sa, ba))
  | .STRING, .vstr s =>
    if sa.length < 2 ^ 32 then some (toBytesBE 4 sa.length, sa ++ s ++ [0], ba)
    else none
  | .BYTES, .vbytes b =>
    if ba.length < 2 ^ 32 ∧ ba.length + b.length < 2 ^ 32 then
      some (toBytesBE 4 ba.length ++ toBytesBE 4 (ba.length + b.length), sa, ba ++ b)
    else none
  | _, _ => none

/-- String pool construction for the column names (pack_pages lines
253-261): for each key, record the offset and append the key,
NUL-terminated.  The source iterates the Python set `keys`, whose
iteration order is unspecified; this model uses first-insertion order
(the validated key order), which the decoder never depends on. -/
def internKeys : List (List Nat) → List Nat → List Nat × List (List Nat × Nat)
  | [], sa => (sa, [])
  | k :: rest, sa =>
    let off := sa.length
    let z := internKeys rest (sa ++ k ++ [0])
    (z.1, (k, off) :: z.2)

/-- Lookup of `elements[element_name][0]` (the interned name offset). -/
def lookupOff : List (List Nat × Nat) → List Nat → Option Nat
  | [], _ => none
  | (k0, o) :: rest, k => if k0 = k then some o else lookupOff rest k

/-- State threaded through the emission loop of `pack_pages`: the
shared (schema) array, the unique array, the string pool and the byte
pool. -/
structure EmitSt where
  shared : List Nat
  unique : List Nat
  strArr : List Nat
  byteArr : List Nat
deriving Repr, DecidableEq

/-- Model of one iteration of the emission loop of `pack_pages` (lines
274-330) for entry `(k, e)` of the page at hand.  `first` is `i == 0`.
Recurring columns inline their single value in the shared array behind
the descriptor; non-recurring columns append the value to the unique
array, with the descriptor written only for the first page. -/
def emitElement (first : Bool) (common : List (List Nat)) (nameOffs : List (List Nat × Nat))
    (k : List Nat) (e : Element) (st : EmitSt) : Option EmitSt :=
  if k ∈ common then
    if first = false then some st
    else
      match lookupOff nameOffs k with
      | none => none
      | some off =>
        if off < 2 ^ 32 then
          match encValue e.type e.val st.strArr st.byteArr with
          | none => none
          | some z =>
            some ⟨st.shared ++ [typeTag e.type + arrayTypeShared * 0x20] ++ toBytesBE 4 off
                ++ z.1, st.unique, z.2.1, z.2.2⟩
        else none
  else
    match encValue e.type e.val st.strArr st.byteArr with
    | none => none
    | some z =>
      if first then
        match lookupOff nameOffs k with
        | none => none
        | some off =>
          if off < 2 ^ 32 then
            some ⟨st.shared ++ [typeTag e.type + arrayTypeUnique * 0x20] ++ toBytesBE 4 off,
              st.unique ++ z.1, z.2.1, z.2.2⟩
          else none
      else some ⟨st.shared, st.unique ++ z.1, z.2.1, z.2.2⟩

/-- Emission of all entries of one page, in the page's own insertion
order. -/
def emitEntries (first : Bool) (common : List (List Nat)) (nameOffs : List (List Nat × Nat)) :
    List (List Nat × Element) → EmitSt → Option EmitSt
  | [], st => some st
  | (k, e) :: rest, st =>
    match emitElement first common nameOffs k e st with
    | none => none
    | some st2 => emitEntries first common nameOffs rest st2

/-- Emission of all pages (`for i, page in enumerate(pages)`): the head
of the list is page 0. -/
def emitPages (common : List (List Nat)) (nameOffs : List (List Nat × Nat)) :
    Bool → List UsmPage → EmitSt → Option EmitSt
  | _, [], st => some st
  | first, p :: rest, st =>
    match emitEntries first common nameOffs p.dict st with
    | none => none
    | some st2 => emitPages common nameOffs false rest st2

/-- Key-set union accumulator (`keys.add(key)` over all pages);
first-insertion order stands in for Python set iteration order. -/
def addKey (acc : List (List Nat)) (k : List Nat) : List (List Nat) :=
  if k ∈ acc then acc else acc ++ [k]

/-- Union of the key sets of all pages. -/
def keysUnion (pages : List UsmPage) : List (List Nat) :=
  pages.foldl (fun acc p => p.dict.foldl (fun a kv => addKey a kv.1) acc) []

/-- Whether all pages carry the same element for key `k` (the source
builds the set of values and compares its size with 1). -/
def allPagesSameValue (pages : List UsmPage) (k : List Nat) : Bool :=
  match pages with
  | [] => true
  | p0 :: _ => pages.all (fun p => dictGet p.dict k == dictGet p0.dict k)

/-- Model of `common_elements` (pack_pages lines 263-267): the keys
whose value recurs identically on all pages; empty whenever there is
only one page. -/
def commonKeys (pages : List UsmPage) : List (List Nat) :=
  (keysUnion pages).filter (fun k => decide (1 < pages.length) && allPagesSameValue pages k)

/-- ASCII bytes of the initial string-pool entry, `"<NULL>"` plus the
NUL terminator. -/
def nullTag : List Nat := [0x3C, 0x4E, 0x55, 0x4C, 0x4C, 0x3E, 0]

/-- ASCII bytes of the `@UTF` page-table magic. -/
def utfMagic : List Nat := [0x40, 0x55, 0x54, 0x46]

/-- Model of `pack_pages` (page.py lines 215-362).  `none` models every
raised exception: empty page list, differing page names or key sets, a
value emission failure, or an `OverflowError` from one of the
`to_bytes` calls that build the 32-byte prelude. -/
def packPages (pages : List UsmPage) (stringPadding : Nat) : Option (List Nat) :=
  match pages with
  | [] => none
  | p0 :: _ =>
    let pageName := p0.name
    let numKeys := p0.dict.length
    if pages.all (fun p => p.name == pageName) = false then none
    else if pages.all (fun p => p.dict.length == numKeys) = false then none
    else
      let keys := keysUnion pages
      if keys.length ≠ numKeys then none
      else
        let pageNameOff := nullTag.length
        let sa0 := nullTag ++ pageName ++ [0]
        let z := internKeys keys sa0
        match emitPages (commonKeys pages) z.2 true pages ⟨[], [], z.1, []⟩ with
        | none => none
        | some st =>
          let strFinal := st.strArr ++ List.replicate stringPadding 0
          let dataSize := 24 + st.shared.length + st.unique.length + strFinal.length
            + st.byteArr.length
          let uao := 24 + st.shared.length
          let so := 24 + st.shared.length + st.unique.length
          let bao := so + strFinal.length
          let usp := st.unique.length / pages.length
          if dataSize < 2 ^ 32 ∧ uao < 2 ^ 32 ∧ so < 2 ^ 32 ∧ bao < 2 ^ 32 ∧
              numKeys < 2 ^ 16 ∧ usp < 2 ^ 16 ∧ pages.length < 2 ^ 32 then
            some (utfMagic ++ toBytesBE 4 dataSize ++ toBytesBE 4 uao ++ toBytesBE 4 so
              ++ toBytesBE 4 bao ++ toBytesBE 4 pageNameOff ++ toBytesBE 2 numKeys
              ++ toBytesBE 2 usp ++ toBytesBE 4 pages.length
              ++ st.shared ++ st.unique ++ strFinal ++ st.byteArr)
          else none

/-- Model of the per-value reads of `get_pages` (lines 132-205): decode
one value of type `t` from the front of `cur`, returning the value and
`element_size`.  `none` models `IndexError` on an empty array for the
one-byte types and a missing NUL terminator for strings. -/
def decodeValue (t : ElementType) (cur sa ba : List Nat) : Option (EValue × Nat) :=
  match t with
  | .CHAR =>
    match cur with
    | [] => none
    | b :: _ => some (.vint b, 1)
  | .UCHAR =>
    match cur with
    | [] => none
    | b :: _ => some (.vint b, 1)
  | .SHORT => some (.vint (sFromBytes (cur.take 2)), 2)
  | .USHORT => some (.vint (beVal (cur.take 2)), 2)
  | .INT => some (.vint (sFromBytes (cur.take 4)), 4)
  | .UINT => some (.vint (beVal (cur.take 4)), 4)
  | .LONGLONG => some (.vint (sFromBytes (cur.take 8)), 8)
  | .ULONGLONG => some (.vint (beVal (cur.take 8)), 8)
  | .STRING => (readCString sa (beVal (cur.take 4))).map (fun s => (.vstr s, 4))
  | .BYTES => some (.vbytes (sliceList ba (beVal (cur.take 4)) (beVal (sliceList cur 4 8))), 8)

/-- Model of one iteration of the inner element loop of `get_pages`
(lines 97-210): read a descriptor from the shared array, the column
name, and the value from the shared or unique array.  Note that `desc %
0x20` equals `desc & 0x1F` and `desc / 0x20` equals `desc >> 5` for
nonnegative ints.  Returns the updated page, the remaining shared array
and the remaining unique array. -/
def decodeElement (sh u sa ba : List Nat) (pg : UsmPage) :
    Option (UsmPage × List Nat × List Nat) :=
  match sh with
  | [] => none
  | desc :: rest =>
    let tag := desc % 0x20
    let occ := desc / 0x20
    let nameOff := beVal (rest.take 4)
    match readCString sa nameOff with
    | none => none
    | some name =>
      match elemTypeFromTag tag with
      | none => none
      | some t =>
        let sh2 := rest.drop 4
        if occ = arrayTypeShared then
          match decodeValue t sh2 sa ba with
          | none => none
          | some z =>
            match pageUpdate pg name t z.1 with
            | none => none
            | some pg2 => some (pg2, sh2.drop z.2, u)
        else if occ = arrayTypeUnique then
          match decodeValue t u sa ba with
          | none => none
          | some z =>
            match pageUpdate pg name t z.1 with
            | none => none
            | some pg2 => some (pg2, sh2, u.drop z.2)
        else none

/-- The inner loop of `get_pages` run `num_elements_per_page` times for
one page; the unique array is threaded on. -/
def decodeElems : Nat → List Nat → List Nat → List Nat → List Nat → UsmPage →
    Option (UsmPage × List Nat)
  | 0, _, u, _, _, pg => some (pg, u)
  | n + 1, sh, u, sa, ba, pg =>
    match decodeElement sh u sa ba pg with
    | none => none
    | some z => decodeElems n z.2.1 z.2.2 sa ba z.1

/-- The outer page loop of `get_pages`: each page restarts from the full
shared array while the unique array advances. -/
def decodePages : Nat → List Nat → List Nat → List Nat → List Nat → Nat → List Nat →
    Option (List UsmPage × List Nat)
  | 0, _, u, _, _, _, _ => some ([], u)
  | m + 1, shF, u, sa, ba, nE, pn =>
    match decodeElems nE shF u sa ba ⟨pn, []⟩ with
    | none => none
    | some z =>
      match decodePages m shF z.2 sa ba nE pn with
      | none => none
      | some w => some (z.1 :: w.1, w.2)

/-- Model of `get_pages` (page.py lines 46-212). -/
def getPages (info : List Nat) : Option (List UsmPage) :=
  if info.take 4 ≠ utfMagic then none
  else
    let payloadSize := beVal (sliceList info 4 8)
    let uao := beVal (sliceList info 8 12)
    let so := beVal (sliceList info 12 16)
    let bao := beVal (sliceList info 16 20)
    let pno := beVal (sliceList info 20 24)
    let nE := beVal (sliceList info 24 26)
    let usp := beVal (sliceList info 26 28)
    let nP := beVal (sliceList info 28 32)
    let sa := sliceList info (8 + so) (8 + bao)
    let ba := sliceList info (8 + bao) (8 + payloadSize)
    match readCString sa pno with
    | none => none
    | some pn =>
      let shF := sliceList info 0x20 (8 + uao)
      let u := sliceList info (8 + uao) (8 + uao + usp * nP)
      match decodePages nP shF u sa ba nE pn with
      | none => none
      | some z => some z.1

/-! ### Page codec round-trip machinery -/

/-- A string-pool reference: offset `off` points at the NUL-terminated
string `s` inside pool `sa`. -/
def StrRef (sa : List Nat) (off : Nat) (s : List Nat) : Prop :=
  0 ∉ s ∧ ∃ pre suf, sa = pre ++ s ++ 0 :: suf ∧ pre.length = off

theorem StrRef.read {sa : List Nat} {off : Nat} {s : List Nat} (h : StrRef sa off s) :
    readCString sa off = some s := by
  obtain ⟨h0, pre, suf, rfl, rfl⟩ := h
  exact readCString_spec h0

theorem StrRef.mono {sa sa2 : List Nat} {off : Nat} {s : List Nat}
    (h : StrRef sa off s) (hext : Extends sa sa2) : StrRef sa2 off s := by
  obtain ⟨h0, pre, suf, rfl, rfl⟩ := h
  obtain ⟨t, rfl⟩ := hext
  exact ⟨h0, pre, suf ++ t, by simp, rfl⟩

/-- Value-range conditions under which the decoder reads back the value
the encoder wrote: I8 values must be nonnegative (the decoder reads the
byte unsigned) and string values must be NUL-free. -/
def ValidVal (t : ElementType) (v : EValue) : Prop :=
  match t, v with
  | .CHAR, .vint n => 0 ≤ n
  | .STRING, .vstr s => (0 : Nat) ∉ s
  | _, _ => True

/-- The value bytes `bs` decode to `(v, elemSize t)` against the final
pools, regardless of what follows them. -/
def ValBytesOK (sa ba : List Nat) (t : ElementType) (v : EValue) (bs : List Nat) : Prop :=
  bs.length = elemSize t ∧
  ∀ tail, decodeValue t (bs ++ tail) sa ba = some (v, elemSize t)

theorem take_append_exact (a b : List Nat) (k : Nat) (h : a.length = k) :
    (a ++ b).take k = a := by
  subst h
  exact List.take_left a b

theorem drop_append_exact (a b : List Nat) (k : Nat) (h : a.length = k) :
    (a ++ b).drop k = b := by
  subst h
  exact List.drop_left a b

theorem encIntCase {o : Option (List Nat)} {sa ba sa2 ba2 out : List Nat}
    (h : o.map (fun bs => (bs, sa, ba)) = some (out, sa2, ba2)) :
    o = some out ∧ sa2 = sa ∧ ba2 = ba := by
  cases o with
  | none => simp at h
  | some bs =>
    simp only [Option.map_some'] at h
    injection h with h'
    injection h' with e1 h''
    injection h'' with e2 e3
    exact ⟨by rw [e1], e2.symm, e3.symm⟩

theorem sToBytes_one {n : Int} {bs : List Nat} (hn : 0 ≤ n) (h : sToBytes 1 n = some bs) :
    bs = [n.toNat] ∧ n < 128 := by
  unfold sToBytes at h
  by_cases hc : -((2 : Int) ^ (8 * 1 - 1)) ≤ n ∧ n < (2 : Int) ^ (8 * 1 - 1)
  · rw [if_pos hc] at h
    have h128 : n < 128 := by
      have he : (2 : Int) ^ (8 * 1 - 1) = 128 := by norm_num
      omega
    refine ⟨?_, h128⟩
    have hb := (Option.some.inj h).symm
    rw [hb]
    have hmod : n % ((2 : Int) ^ (8 * 1)) = n := by
      apply Int.emod_eq_of_lt hn
      have he : (2 : Int) ^ (8 * 1) = 256 := by norm_num
      omega
    rw [hmod]
    show toBytesBE 0 (n.toNat / 256) ++ [n.toNat % 256] = [n.toNat]
    have hm : n.toNat % 256 = n.toNat := Nat.mod_eq_of_lt (by omega)
    rw [hm]
    rfl
  · rw [if_neg hc] at h
    exact absurd h (by simp)

theorem uToBytes_one {n : Int} {bs : List Nat} (h : uToBytes 1 n = some bs) :
    bs = [n.toNat] ∧ 0 ≤ n ∧ n < 256 := by
  unfold uToBytes at h
  by_cases hc : 0 ≤ n ∧ n < (2 : Int) ^ (8 * 1)
  · rw [if_pos hc] at h
    have h256 : n < 256 := by
      have he : (2 : Int) ^ (8 * 1) = 256 := by norm_num
      omega
    refine ⟨?_, hc.1, h256⟩
    have hb := (Option.some.inj h).symm
    rw [hb]
    show toBytesBE 0 (n.toNat / 256) ++ [n.toNat % 256] = [n.toNat]
    have hm : n.toNat % 256 = n.toNat := Nat.mod_eq_of_lt (by omega)
    rw [hm]
    rfl
  · rw [if_neg hc] at h
    exact absurd h (by simp)

theorem encValue_spec {t : ElementType} {v : EValue} {sa ba sa2 ba2 out : List Nat}
    (hvalid : ValidVal t v) (h : encValue t v sa ba = some (out, sa2, ba2)) :
    Extends sa sa2 ∧ Extends ba ba2 ∧ out.length = elemSize t ∧
    ∀ SA BA, Extends sa2 SA → Extends ba2 BA → ValBytesOK SA BA t v out := by
  cases t <;> cases v <;> simp only [encValue] at h
  case CHAR.vint n =>
    obtain ⟨hbs, rfl, rfl⟩ := encIntCase h
    obtain ⟨hb, h128⟩ := sToBytes_one hvalid hbs
    subst hb
    refine ⟨Extends.refl _, Extends.refl _, rfl, fun SA BA _ _ => ⟨rfl, fun tail => ?_⟩⟩
    show decodeValue ElementType.CHAR (n.toNat :: tail) SA BA = some (.vint n, 1)
    have hn0 : (0 : Int) ≤ n := hvalid
    simp only [decodeValue]
    rw [show ((n.toNat : Int)) = n by omega]
  case UCHAR.vint n =>
    obtain ⟨hbs, rfl, rfl⟩ := encIntCase h
    obtain ⟨hb, hn0, h256⟩ := uToBytes_one hbs
    subst hb
    refine ⟨Extends.refl _, Extends.refl _, rfl, fun SA BA _ _ => ⟨rfl, fun tail => ?_⟩⟩
    show decodeValue ElementType.UCHAR (n.toNat :: tail) SA BA = some (.vint n, 1)
    simp only [decodeValue]
    rw [show ((n.toNat : Int)) = n by omega]
  case SHORT.vint n =>
    obtain ⟨hbs, rfl, rfl⟩ := encIntCase h
    obtain ⟨hlen, hval⟩ := sToBytes_spec (by norm_num) hbs
    refine ⟨Extends.refl _, Extends.refl _, hlen, fun SA BA _ _ => ⟨hlen, fun tail => ?_⟩⟩
    simp only [decodeValue]
    rw [take_append_exact out tail 2 hlen, hval]
    rfl
  case USHORT.vint n =>
    obtain ⟨hbs, rfl, rfl⟩ := encIntCase h
    obtain ⟨hlen, hval, hn0, hnlt⟩ := uToBytes_spec hbs
    refine ⟨Extends.refl _, Extends.refl _, hlen, fun SA BA _ _ => ⟨hlen, fun tail => ?_⟩⟩
    simp only [decodeValue]
    rw [take_append_exact out tail 2 hlen]
    rw [show ((beVal out : Int)) = n from hval]
    rfl
  case INT.vint n =>
    obtain ⟨hbs, rfl, rfl⟩ := encIntCase h
    obtain ⟨hlen, hval⟩ := sToBytes_spec (by norm_num) hbs
    refine ⟨Extends.refl _, Extends.refl _, hlen, fun SA BA _ _ => ⟨hlen, fun tail => ?_⟩⟩
    simp only [decodeValue]
    rw [take_append_exact out tail 4 hlen, hval]
    rfl
  case UINT.vint n =>
    obtain ⟨hbs, rfl, rfl⟩ := encIntCase h
    obtain ⟨hlen, hval, hn0, hnlt⟩ := uToBytes_spec hbs
    refine ⟨Extends.refl _, Extends.refl _, hlen, fun SA BA _ _ => ⟨hlen, fun tail => ?_⟩⟩
    simp only [decodeValue]
    rw [take_append_exact out tail 4 hlen]
    rw [show ((beVal out : Int)) = n from hval]
    rfl
  case LONGLONG.vint n =>
    obtain ⟨hbs, rfl, rfl⟩ := encIntCase h
    obtain ⟨hlen, hval⟩ := sToBytes_spec (by norm_num) hbs
    refine ⟨Extends.refl _, Extends.refl _, hlen, fun SA BA _ _ => ⟨hlen, fun tail => ?_⟩⟩
    simp only [decodeValue]
    rw [take_append_exact out tail 8 hlen, hval]
    rfl
  case ULONGLONG.vint n =>
    obtain ⟨hbs, rfl, rfl⟩ := encIntCase h
    obtain ⟨hlen, hval, hn0, hnlt⟩ := uToBytes_spec hbs
    refine ⟨Extends.refl _, Extends.refl _, hlen, fun SA BA _ _ => ⟨hlen, fun tail => ?_⟩⟩
    simp only [decodeValue]
    rw [take_append_exact out tail 8 hlen]
    rw [show ((beVal out : Int)) = n from hval]
    rfl
  case STRING.vstr s =>
    by_cases hsa : sa.length < 2 ^ 32
    · rw [if_pos hsa] at h
      injection h with h'
      injection h' with e1 h''
      injection h'' with e2 e3
      subst e1
      subst e2
      subst e3
      refine ⟨⟨s ++ [0], by simp⟩, Extends.refl _, length_toBytesBE _ _,
        fun SA BA hSA _ => ⟨length_toBytesBE _ _, fun tail => ?_⟩⟩
      simp only [decodeValue]
      rw [take_append_exact _ tail 4 (length_toBytesBE _ _)]
      rw [beVal_toBytesBE (by omega)]
      obtain ⟨ext, rfl⟩ := hSA
      have hshape : sa ++ s ++ [0] ++ ext = sa ++ s ++ 0 :: ext := by simp
      rw [hshape, readCString_spec hvalid]
      rfl
    · rw [if_neg hsa] at h
      exact absurd h (by simp)
  case BYTES.vbytes b =>
    by_cases hba : ba.length < 2 ^ 32 ∧ ba.length + b.length < 2 ^ 32
    · rw [if_pos hba] at h
      injection h with h'
      injection h' with e1 h''
      injection h'' with e2 e3
      subst e1
      subst e2
      subst e3
      have hlen8 : (toBytesBE 4 ba.length ++ toBytesBE 4 (ba.length + b.length)).length = 8 := by
        simp [length_toBytesBE]
      refine ⟨Extends.refl _, ⟨b, rfl⟩, hlen8,
        fun SA BA _ hBA => ⟨hlen8, fun tail => ?_⟩⟩
      simp only [decodeValue]
      have hsplit : toBytesBE 4 ba.length ++ toBytesBE 4 (ba.length + b.length) ++ tail
          = toBytesBE 4 ba.length ++ (toBytesBE 4 (ba.length + b.length) ++ tail) := by
        simp
      rw [hsplit]
      rw [take_append_exact _ _ 4 (length_toBytesBE _ _)]
      have hslice48 : sliceList
          (toBytesBE 4 ba.length ++ (toBytesBE 4 (ba.length + b.length) ++ tail)) 4 8
          = toBytesBE 4 (ba.length + b.length) := by
        unfold sliceList
        rw [List.take_append_eq_append_take]
        rw [List.take_of_length_le (by rw [length_toBytesBE]; norm_num)]
        rw [take_append_exact _ tail _ (by rw [length_toBytesBE, length_toBytesBE])]
        rw [drop_append_exact _ _ 4 (length_toBytesBE _ _)]
      rw [hslice48]
      rw [beVal_toBytesBE (by omega), beVal_toBytesBE (by omega)]
      obtain ⟨ext, rfl⟩ := hBA
      have hsl : sliceList (ba ++ b ++ ext) ba.length (ba.length + b.length) = b :=
        sliceList_exact ba b ext
      rw [hsl]
      rfl
    · rw [if_neg hba] at h
      exact absurd h (by simp)
  all_goals exact absurd h (by simp)

/-- Description of the schema (shared-array) segment the encoder emits
for the page-0 entries: per column one descriptor byte, a 4-byte name
offset, and for recurring columns the inlined value bytes. -/
def SchemaDesc (SA BA : List Nat) (common : List (List Nat)) :
    List (List Nat × Element) → List Nat → Prop
  | [], sh => sh = []
  | (k, e) :: rest, sh =>
    ∃ off sh2,
      StrRef SA off k ∧ off < 2 ^ 32 ∧
      (if k ∈ common then
        ∃ vb, ValBytesOK SA BA e.type e.val vb ∧
          sh = (typeTag e.type + arrayTypeShared * 0x20) :: (toBytesBE 4 off ++ (vb ++ sh2))
      else
        sh = (typeTag e.type + arrayTypeUnique * 0x20) :: (toBytesBE 4 off ++ sh2)) ∧
      SchemaDesc SA BA common rest sh2

/-- Description of one page's segment of the unique array: the value
bytes of its non-recurring columns, in key order. -/
def UniqueDesc (SA BA : List Nat) (common : List (List Nat)) :
    List (List Nat × Element) → List Nat → Prop
  | [], u => u = []
  | (k, e) :: rest, u =>
    if k ∈ common then UniqueDesc SA BA common rest u
    else ∃ vb u2, ValBytesOK SA BA e.type e.val vb ∧ u = vb ++ u2 ∧
      UniqueDesc SA BA common rest u2

/-- Total encoded size of the non-recurring columns of a page. -/
def uniqueLen (common : List (List Nat)) : List (List Nat × Element) → Nat
  | [] => 0
  | (k, e) :: rest => (if k ∈ common then 0 else elemSize e.type) + uniqueLen common rest

theorem UniqueDesc.len {SA BA : List Nat} {common : List (List Nat)} :
    ∀ {es : List (List Nat × Element)} {u : List Nat},
    UniqueDesc SA BA common es u → u.length = uniqueLen common es := by
  intro es
  induction es with
  | nil =>
    intro u h
    rw [show u = [] from h]
    rfl
  | cons kv rest ih =>
    intro u h
    obtain ⟨k, e⟩ := kv
    simp only [UniqueDesc] at h
    simp only [uniqueLen]
    by_cases hc : k ∈ common
    · rw [if_pos hc] at h
      rw [if_pos hc, ih h]
      omega
    · rw [if_neg hc] at h
      obtain ⟨vb, u2, hvb, rfl, hrest⟩ := h
      rw [if_neg hc]
      simp [ih hrest, hvb.1]

theorem replaceBackslash_id {s : List Nat} (h : (0x5C : Nat) ∉ s) :
    replaceBackslash s = s := by
  induction s with
  | nil => rfl
  | cons x xs ih =>
    have hx : x ≠ 0x5C := fun hc => h (by simp [hc])
    have hxs : (0x5C : Nat) ∉ xs := fun hc => h (by simp [hc])
    simp only [replaceBackslash, List.map_cons]
    rw [if_neg hx]
    have := ih hxs
    simp only [replaceBackslash] at this
    rw [this]

theorem dictUpdate_append {d : List (List Nat × Element)} {k : List Nat} (e : Element)
    (hk : k ∉ d.map Prod.fst) : dictUpdate d k e = d ++ [(k, e)] := by
  induction d with
  | nil => rfl
  | cons kv rest ih =>
    obtain ⟨k0, e0⟩ := kv
    have hne : k0 ≠ k := by
      intro hc
      exact hk (by simp [hc])
    simp only [dictUpdate]
    rw [if_neg hne]
    rw [ih (fun hc => hk (by simp [hc]))]
    simp

theorem pageUpdate_append (pg : UsmPage) (k : List Nat) (e : Element)
    (hk : k ∉ pg.dict.map Prod.fst)
    (hfn : k = filenameKey → ∃ s, e.val = .vstr s ∧ (0x5C : Nat) ∉ s) :
    pageUpdate pg k e.type e.val = some ⟨pg.name, pg.dict ++ [(k, e)]⟩ := by
  unfold pageUpdate
  by_cases hc : k = filenameKey
  · rw [if_pos hc]
    obtain ⟨s, hs, hbs⟩ := hfn hc
    rw [hs]
    show some (UsmPage.mk pg.name (dictUpdate pg.dict k ⟨EValue.vstr (replaceBackslash s), e.type⟩))
      = some (UsmPage.mk pg.name (pg.dict ++ [(k, e)]))
    rw [replaceBackslash_id hbs]
    rw [dictUpdate_append ⟨.vstr s, e.type⟩ hk]
    rw [show (⟨.vstr s, e.type⟩ : Element) = e by rw [← hs]]
  · rw [if_neg hc]
    rw [dictUpdate_append ⟨e.val, e.type⟩ hk]

theorem typeTag_lt (t : ElementType) : typeTag t < 0x20 := by
  cases t <;> norm_num [typeTag]

theorem elemTypeFromTag_typeTag (t : ElementType) : elemTypeFromTag (typeTag t) = some t := by
  cases t <;> rfl

theorem descByte_shared (t : ElementType) :
    (typeTag t + arrayTypeShared * 0x20) % 0x20 = typeTag t ∧
    (typeTag t + arrayTypeShared * 0x20) / 0x20 = arrayTypeShared := by
  have := typeTag_lt t
  unfold arrayTypeShared
  omega

theorem descByte_unique (t : ElementType) :
    (typeTag t + arrayTypeUnique * 0x20) % 0x20 = typeTag t ∧
    (typeTag t + arrayTypeUnique * 0x20) / 0x20 = arrayTypeUnique := by
  have := typeTag_lt t
  unfold arrayTypeUnique
  omega

theorem decodeElement_shared_spec {SA BA : List Nat} {t : ElementType} {off : Nat}
    {vb sh2 u : List Nat} {k : List Nat} {v : EValue} {pg pg2 : UsmPage}
    (hoff : off < 2 ^ 32) (href : StrRef SA off k)
    (hvb : ValBytesOK SA BA t v vb)
    (hupd : pageUpdate pg k t v = some pg2) :
    decodeElement ((typeTag t + arrayTypeShared * 0x20) :: (toBytesBE 4 off ++ (vb ++ sh2)))
      u SA BA pg = some (pg2, sh2, u) := by
  have htake : (toBytesBE 4 off ++ (vb ++ sh2)).take 4 = toBytesBE 4 off :=
    take_append_exact _ _ 4 (length_toBytesBE _ _)
  have hdrop : (toBytesBE 4 off ++ (vb ++ sh2)).drop 4 = vb ++ sh2 :=
    drop_append_exact _ _ 4 (length_toBytesBE _ _)
  have hdropvb : (vb ++ sh2).drop (elemSize t) = sh2 := drop_append_exact _ _ _ hvb.1
  have hdv : decodeValue t (vb ++ sh2) SA BA = some (v, elemSize t) := hvb.2 sh2
  have hbe : beVal (toBytesBE 4 off) = off := beVal_toBytesBE (k := 4) hoff
  simp only [decodeElement, (descByte_shared t).1, (descByte_shared t).2, htake, hdrop,
    hbe, href.read, elemTypeFromTag_typeTag, hdv, hupd, hdropvb, if_true, if_false]

theorem decodeElement_unique_spec {SA BA : List Nat} {t : ElementType} {off : Nat}
    {vb sh2 u2 : List Nat} {k : List Nat} {v : EValue} {pg pg2 : UsmPage}
    (hoff : off < 2 ^ 32) (href : StrRef SA off k)
    (hvb : ValBytesOK SA BA t v vb)
    (hupd : pageUpdate pg k t v = some pg2) :
    decodeElement ((typeTag t + arrayTypeUnique * 0x20) :: (toBytesBE 4 off ++ sh2))
      (vb ++ u2) SA BA pg = some (pg2, sh2, u2) := by
  have htake : (toBytesBE 4 off ++ sh2).take 4 = toBytesBE 4 off :=
    take_append_exact _ _ 4 (length_toBytesBE _ _)
  have hdrop : (toBytesBE 4 off ++ sh2).drop 4 = sh2 :=
    drop_append_exact _ _ 4 (length_toBytesBE _ _)
  have hdropvb : (vb ++ u2).drop (elemSize t) = u2 := drop_append_exact _ _ _ hvb.1
  have hdv : decodeValue t (vb ++ u2) SA BA = some (v, elemSize t) := hvb.2 u2
  have hocc : arrayTypeUnique ≠ arrayTypeShared := by norm_num [arrayTypeShared, arrayTypeUnique]
  have hbe : beVal (toBytesBE 4 off) = off := beVal_toBytesBE (k := 4) hoff
  simp only [decodeElement, (descByte_unique t).1, (descByte_unique t).2, htake, hdrop,
    hbe, href.read, elemTypeFromTag_typeTag, hdv, hupd, hdropvb,
    if_neg hocc, if_true, if_false]

/-- Column alignment between page 0 and a later page: same keys in the
same order, same column types, and equal elements on recurring
columns. -/
abbrev Aligned (common : List (List Nat)) :
    List (List Nat × Element) → List (List Nat × Element) → Prop :=
  List.Forall₂ (fun a b => b.1 = a.1 ∧ b.2.type = a.2.type ∧ (a.1 ∈ common → b.2 = a.2))

/-- The filename-safety condition on a page: any element stored under
the key `filename` is a backslash-free string (otherwise the decoder's
`UsmPage.update` either raises or alters the value). -/
def FilenameSafe (es : List (List Nat × Element)) : Prop :=
  ∀ k e, (k, e) ∈ es → k = filenameKey → ∃ s, e.val = EValue.vstr s ∧ (0x5C : Nat) ∉ s

theorem decodeElems_spec (SA BA : List Nat) (common : List (List Nat)) :
    ∀ (es0 es : List (List Nat × Element)) (sh u uRest : List Nat) (pg : UsmPage),
    Aligned common es0 es →
    SchemaDesc SA BA common es0 sh →
    UniqueDesc SA BA common es u →
    FilenameSafe es →
    (pg.dict.map Prod.fst ++ es.map Prod.fst).Nodup →
    decodeElems es0.length sh (u ++ uRest) SA BA pg
      = some (⟨pg.name, pg.dict ++ es⟩, uRest) := by
  intro es0
  induction es0 with
  | nil =>
    intro es sh u uRest pg halign hsch huni hfn hnd
    cases halign
    have hsh : sh = [] := hsch
    have hu : u = [] := huni
    subst hsh
    subst hu
    simp [decodeElems]
  | cons kv0 r0 ih =>
    obtain ⟨k0, e0⟩ := kv0
    intro es sh u uRest pg halign hsch huni hfn hnd
    cases halign with
    | cons h1 hrest =>
      rename_i kv r
      obtain ⟨k, e⟩ := kv
      obtain ⟨hk, htype, hcommon⟩ := h1
      simp only at hk htype hcommon
      subst hk
      obtain ⟨off, sh2, href, hoff, hshape, hsch2⟩ := hsch
      have hk0notin : k ∉ pg.dict.map Prod.fst := by
        intro hmem
        have hdisj := List.disjoint_of_nodup_append hnd
        exact hdisj hmem (by simp)
      have hndtail : ((pg.dict ++ [(k, e)]).map Prod.fst ++ r.map Prod.fst).Nodup := by
        have heq : (pg.dict ++ [(k, e)]).map Prod.fst ++ r.map Prod.fst
            = pg.dict.map Prod.fst ++ ((k, e) :: r).map Prod.fst := by
          simp
        rw [heq]
        exact hnd
      by_cases hc : k ∈ common
      · rw [if_pos hc] at hshape
        obtain ⟨vb, hvb, rfl⟩ := hshape
        have he : e = e0 := hcommon hc
        subst he
        simp only [UniqueDesc, if_pos hc] at huni
        have hupd : pageUpdate pg k e.type e.val
            = some ⟨pg.name, pg.dict ++ [(k, e)]⟩ :=
          pageUpdate_append pg k e hk0notin (fun hfk => hfn k e (by simp) hfk)
        show decodeElems (r0.length + 1) _ (u ++ uRest) SA BA pg = _
        simp only [decodeElems, decodeElement_shared_spec hoff href hvb hupd]
        rw [ih r sh2 u uRest ⟨pg.name, pg.dict ++ [(k, e)]⟩ hrest hsch2 huni
          (fun k2 e2 hm => hfn k2 e2 (by simp [hm])) hndtail]
        simp
      · rw [if_neg hc] at hshape
        subst hshape
        simp only [UniqueDesc, if_neg hc] at huni
        obtain ⟨vb, u2, hvb, rfl, huni2⟩ := huni
        have hvb2 : ValBytesOK SA BA e0.type e.val vb := by
          rw [← htype]
          exact hvb
        have hupd0 : pageUpdate pg k e.type e.val
            = some ⟨pg.name, pg.dict ++ [(k, e)]⟩ :=
          pageUpdate_append pg k e hk0notin (fun hfk => hfn k e (by simp) hfk)
        have hupd : pageUpdate pg k e0.type e.val
            = some ⟨pg.name, pg.dict ++ [(k, e)]⟩ := by
          rw [← htype]
          exact hupd0
        have hassoc : vb ++ u2 ++ uRest = vb ++ (u2 ++ uRest) := by simp
        show decodeElems (r0.length + 1) _ (vb ++ u2 ++ uRest) SA BA pg = _
        rw [hassoc]
        simp only [decodeElems, decodeElement_unique_spec hoff href hvb2 hupd]
        rw [ih r sh2 u2 uRest ⟨pg.name, pg.dict ++ [(k, e)]⟩ hrest hsch2 huni2
          (fun k2 e2 hm => hfn k2 e2 (by simp [hm])) hndtail]
        simp

theorem emitEntries_first_spec
    (common : List (List Nat)) (nameOffs : List (List Nat × Nat)) (base : List Nat) :
    ∀ (entries : List (List Nat × Element)) (st st' : EmitSt),
    emitEntries true common nameOffs entries st = some st' →
    (∀ k e, (k, e) ∈ entries → ValidVal e.type e.val) →
    (∀ k e, (k, e) ∈ entries → ∃ off, lookupOff nameOffs k = some off ∧ StrRef base off k) →
    Extends base st.strArr →
    Extends st.strArr st'.strArr ∧ Extends st.byteArr st'.byteArr ∧
    (∃ seg, st'.shared = st.shared ++ seg) ∧
    (∃ useg, st'.unique = st.unique ++ useg) ∧
    (∀ SA BA, Extends st'.strArr SA → Extends st'.byteArr BA →
      SchemaDesc SA BA common entries (st'.shared.drop st.shared.length) ∧
      UniqueDesc SA BA common entries (st'.unique.drop st.unique.length)) := by
  intro entries
  induction entries with
  | nil =>
    intro st st' hemit _ _ _
    have hst : st' = st := by
      simp only [emitEntries] at hemit
      exact (Option.some.inj hemit).symm
    subst hst
    refine ⟨Extends.refl _, Extends.refl _, ⟨[], by simp⟩, ⟨[], by simp⟩, ?_⟩
    intro SA BA _ _
    rw [List.drop_length, List.drop_length]
    exact ⟨rfl, rfl⟩
  | cons kv rest ih =>
    obtain ⟨k, e⟩ := kv
    intro st st' hemit hvalid hoffs hbase
    simp only [emitEntries] at hemit
    cases hel : emitElement true common nameOffs k e st with
    | none => rw [hel] at hemit; exact absurd hemit (by simp)
    | some st1 =>
      rw [hel] at hemit
      simp only at hemit
      obtain ⟨off0, hlk0, href0⟩ := hoffs k e (by simp)
      have hv := hvalid k e (by simp)
      by_cases hc : k ∈ common
      · simp only [emitElement, if_pos hc, hlk0] at hel
        by_cases hofflt : off0 < 2 ^ 32
        · rw [if_pos hofflt] at hel
          cases henc : encValue e.type e.val st.strArr st.byteArr with
          | none => rw [henc] at hel; exact absurd hel (by simp)
          | some z =>
            obtain ⟨out, sa2, ba2⟩ := z
            rw [henc] at hel
            simp only at hel
            have hst1 : st1 = ⟨st.shared ++ [typeTag e.type + arrayTypeShared * 0x20]
                ++ toBytesBE 4 off0 ++ out, st.unique, sa2, ba2⟩ := (Option.some.inj hel).symm
            obtain ⟨hexs, hexb, houtlen, hdec⟩ := encValue_spec hv henc
            obtain ⟨hes, heb, ⟨seg, hseg⟩, ⟨useg, huseg⟩, hdesc⟩ :=
              ih st1 st' hemit (fun k2 e2 hm => hvalid k2 e2 (by simp [hm]))
                (fun k2 e2 hm => hoffs k2 e2 (by simp [hm]))
                (by rw [hst1]; exact hbase.trans hexs)
            have hs1s : st1.strArr = sa2 := by rw [hst1]
            have hs1b : st1.byteArr = ba2 := by rw [hst1]
            have hs1sh : st1.shared = st.shared ++ [typeTag e.type + arrayTypeShared * 0x20]
                ++ toBytesBE 4 off0 ++ out := by rw [hst1]
            have hs1u : st1.unique = st.unique := by rw [hst1]
            have hes2 : Extends sa2 st'.strArr := hs1s ▸ hes
            have heb2 : Extends ba2 st'.byteArr := hs1b ▸ heb
            refine ⟨hexs.trans hes2, hexb.trans heb2, ?_, ?_, ?_⟩
            · refine ⟨[typeTag e.type + arrayTypeShared * 0x20] ++ (toBytesBE 4 off0
                ++ (out ++ seg)), ?_⟩
              rw [hseg, hs1sh]
              simp
            · refine ⟨useg, ?_⟩
              rw [huseg, hs1u]
            · intro SA BA hSA hBA
              have hSA2 : Extends sa2 SA := hes2.trans hSA
              have hBA2 : Extends ba2 BA := heb2.trans hBA
              obtain ⟨hdesc1, hdesc2⟩ := hdesc SA BA hSA hBA
              constructor
              · have hdropsh : st'.shared.drop st.shared.length
                    = (typeTag e.type + arrayTypeShared * 0x20) ::
                      (toBytesBE 4 off0 ++ (out ++ (st'.shared.drop st1.shared.length))) := by
                  have hdrop1 : st'.shared.drop st1.shared.length = seg := by
                    rw [hseg]
                    exact drop_append_exact _ _ _ rfl
                  rw [hdrop1, hseg, hs1sh]
                  have hshape : st.shared ++ [typeTag e.type + arrayTypeShared * 0x20]
                      ++ toBytesBE 4 off0 ++ out ++ seg
                      = st.shared ++ ((typeTag e.type + arrayTypeShared * 0x20) ::
                        (toBytesBE 4 off0 ++ (out ++ seg))) := by
                    simp
                  rw [hshape]
                  exact drop_append_exact _ _ _ rfl
                rw [hdropsh]
                show SchemaDesc SA BA common ((k, e) :: rest) _
                simp only [SchemaDesc]
                refine ⟨off0, st'.shared.drop st1.shared.length,
                  href0.mono (hbase.trans (hexs.trans (hes2.trans hSA))), hofflt, ?_, hdesc1⟩
                rw [if_pos hc]
                exact ⟨out, hdec SA BA hSA2 hBA2, rfl⟩
              · show UniqueDesc SA BA common ((k, e) :: rest) _
                simp only [UniqueDesc]
                rw [if_pos hc]
                rw [hs1u] at hdesc2
                exact hdesc2
        · rw [if_neg hofflt] at hel
          exact absurd hel (by simp)
      · simp only [emitElement, if_neg hc] at hel
        cases henc : encValue e.type e.val st.strArr st.byteArr with
        | none => rw [henc] at hel; exact absurd hel (by simp)
        | some z =>
          obtain ⟨out, sa2, ba2⟩ := z
          rw [henc] at hel
          simp only [hlk0] at hel
          by_cases hofflt : off0 < 2 ^ 32
          · rw [if_pos hofflt] at hel
            have hst1 : st1 = ⟨st.shared ++ [typeTag e.type + arrayTypeUnique * 0x20]
                ++ toBytesBE 4 off0, st.unique ++ out, sa2, ba2⟩ := (Option.some.inj hel).symm
            obtain ⟨hexs, hexb, houtlen, hdec⟩ := encValue_spec hv henc
            obtain ⟨hes, heb, ⟨seg, hseg⟩, ⟨useg, huseg⟩, hdesc⟩ :=
              ih st1 st' hemit (fun k2 e2 hm => hvalid k2 e2 (by simp [hm]))
                (fun k2 e2 hm => hoffs k2 e2 (by simp [hm]))
                (by rw [hst1]; exact hbase.trans hexs)
            have hs1s : st1.strArr = sa2 := by rw [hst1]
            have hs1b : st1.byteArr = ba2 := by rw [hst1]
            have hs1sh : st1.shared = st.shared ++ [typeTag e.type + arrayTypeUnique * 0x20]
                ++ toBytesBE 4 off0 := by rw [hst1]
            have hs1u : st1.unique = st.unique ++ out := by rw [hst1]
            have hes2 : Extends sa2 st'.strArr := hs1s ▸ hes
            have heb2 : Extends ba2 st'.byteArr := hs1b ▸ heb
            refine ⟨hexs.trans hes2, hexb.trans heb2, ?_, ?_, ?_⟩
            · refine ⟨[typeTag e.type + arrayTypeUnique * 0x20] ++ (toBytesBE 4 off0 ++ seg),
                ?_⟩
              rw [hseg, hs1sh]
              simp
            · refine ⟨out ++ useg, ?_⟩
              rw [huseg, hs1u]
              simp
            · intro SA BA hSA hBA
              have hSA2 : Extends sa2 SA := hes2.trans hSA
              have hBA2 : Extends ba2 BA := heb2.trans hBA
              obtain ⟨hdesc1, hdesc2⟩ := hdesc SA BA hSA hBA
              constructor
              · have hdropsh : st'.shared.drop st.shared.length
                    = (typeTag e.type + arrayTypeUnique * 0x20) ::
                      (toBytesBE 4 off0 ++ (st'.shared.drop st1.shared.length)) := by
                  have hdrop1 : st'.shared.drop st1.shared.length = seg := by
                    rw [hseg]
                    exact drop_append_exact _ _ _ rfl
                  rw [hdrop1, hseg, hs1sh]
                  have hshape : st.shared ++ [typeTag e.type + arrayTypeUnique * 0x20]
                      ++ toBytesBE 4 off0 ++ seg
                      = st.shared ++ ((typeTag e.type + arrayTypeUnique * 0x20) ::
                        (toBytesBE 4 off0 ++ seg)) := by
                    simp
                  rw [hshape]
                  exact drop_append_exact _ _ _ rfl
                rw [hdropsh]
                show SchemaDesc SA BA common ((k, e) :: rest) _
                simp only [SchemaDesc]
                refine ⟨off0, st'.shared.drop st1.shared.length,
                  href0.mono (hbase.trans (hexs.trans (hes2.trans hSA))), hofflt, ?_, hdesc1⟩
                rw [if_neg hc]
              · have hdropu : st'.unique.drop st.unique.length
                    = out ++ (st'.unique.drop st1.unique.length) := by
                  have hdrop1 : st'.unique.drop st1.unique.length = useg := by
                    rw [huseg]
                    exact drop_append_exact _ _ _ rfl
                  rw [hdrop1, huseg, hs1u]
                  have hshape : st.unique ++ out ++ useg = st.unique ++ (out ++ useg) := by
                    simp
                  rw [hshape]
                  exact drop_append_exact _ _ _ rfl
                rw [hdropu]
                show UniqueDesc SA BA common ((k, e) :: rest) _
                simp only [UniqueDesc]
                rw [if_neg hc]
                exact ⟨out, st'.unique.drop st1.unique.length, hdec SA BA hSA2 hBA2, rfl,
                  hdesc2⟩
          · rw [if_neg hofflt] at hel
            exact absurd hel (by simp)

theorem emitEntries_later_spec
    (common : List (List Nat)) (nameOffs : List (List Nat × Nat)) :
    ∀ (entries : List (List Nat × Element)) (st st' : EmitSt),
    emitEntries false common nameOffs entries st = some st' →
    (∀ k e, (k, e) ∈ entries → ValidVal e.type e.val) →
    Extends st.strArr st'.strArr ∧ Extends st.byteArr st'.byteArr ∧
    st'.shared = st.shared ∧
    (∃ useg, st'.unique = st.unique ++ useg) ∧
    (∀ SA BA, Extends st'.strArr SA → Extends st'.byteArr BA →
      UniqueDesc SA BA common entries (st'.unique.drop st.unique.length)) := by
  intro entries
  induction entries with
  | nil =>
    intro st st' hemit _
    have hst : st' = st := by
      simp only [emitEntries] at hemit
      exact (Option.some.inj hemit).symm
    subst hst
    refine ⟨Extends.refl _, Extends.refl _, rfl, ⟨[], by simp⟩, ?_⟩
    intro SA BA _ _
    rw [List.drop_length]
    rfl
  | cons kv rest ih =>
    obtain ⟨k, e⟩ := kv
    intro st st' hemit hvalid
    simp only [emitEntries] at hemit
    cases hel : emitElement false common nameOffs k e st with
    | none => rw [hel] at hemit; exact absurd hemit (by simp)
    | some st1 =>
      rw [hel] at hemit
      simp only at hemit
      have hv := hvalid k e (by simp)
      by_cases hc : k ∈ common
      · have hst1 : st1 = st := by
          simp only [emitElement, if_pos hc] at hel
          exact (Option.some.inj hel).symm
        subst hst1
        obtain ⟨hes, heb, hsh, huseg, hdesc⟩ :=
          ih st1 st' hemit (fun k2 e2 hm => hvalid k2 e2 (by simp [hm]))
        refine ⟨hes, heb, hsh, huseg, ?_⟩
        intro SA BA hSA hBA
        show UniqueDesc SA BA common ((k, e) :: rest) _
        simp only [UniqueDesc]
        rw [if_pos hc]
        exact hdesc SA BA hSA hBA
      · simp only [emitElement, if_neg hc] at hel
        cases henc : encValue e.type e.val st.strArr st.byteArr with
        | none => rw [henc] at hel; exact absurd hel (by simp)
        | some z =>
          obtain ⟨out, sa2, ba2⟩ := z
          rw [henc] at hel
          simp only at hel
          have hst1 : st1 = ⟨st.shared, st.unique ++ out, sa2, ba2⟩ :=
            (Option.some.inj hel).symm
          obtain ⟨hexs, hexb, houtlen, hdec⟩ := encValue_spec hv henc
          obtain ⟨hes, heb, hsh, ⟨useg, huseg⟩, hdesc⟩ :=
            ih st1 st' hemit (fun k2 e2 hm => hvalid k2 e2 (by simp [hm]))
          have hs1s : st1.strArr = sa2 := by rw [hst1]
          have hs1b : st1.byteArr = ba2 := by rw [hst1]
          have hs1sh : st1.shared = st.shared := by rw [hst1]
          have hs1u : st1.unique = st.unique ++ out := by rw [hst1]
          have hes2 : Extends sa2 st'.strArr := hs1s ▸ hes
          have heb2 : Extends ba2 st'.byteArr := hs1b ▸ heb
          refine ⟨hexs.trans hes2, hexb.trans heb2, by rw [hsh, hs1sh], ?_, ?_⟩
          · refine ⟨out ++ useg, ?_⟩
            rw [huseg, hs1u]
            simp
          · intro SA BA hSA hBA
            have hSA2 : Extends sa2 SA := hes2.trans hSA
            have hBA2 : Extends ba2 BA := heb2.trans hBA
            have hdesc2 := hdesc SA BA hSA hBA
            have hdropu : st'.unique.drop st.unique.length
                = out ++ (st'.unique.drop st1.unique.length) := by
              have hdrop1 : st'.unique.drop st1.unique.length = useg := by
                rw [huseg]
                exact drop_append_exact _ _ _ rfl
              rw [hdrop1, huseg, hs1u]
              have hshape : st.unique ++ out ++ useg = st.unique ++ (out ++ useg) := by
                simp
              rw [hshape]
              exact drop_append_exact _ _ _ rfl
            rw [hdropu]
            show UniqueDesc SA BA common ((k, e) :: rest) _
            simp only [UniqueDesc]
            rw [if_neg hc]
            exact ⟨out, st'.unique.drop st1.unique.length, hdec SA BA hSA2 hBA2, rfl, hdesc2⟩

theorem sliceList_at (pre mid suf : List Nat) (a b : Nat) (ha : pre.length = a)
    (hb : a + mid.length = b) : sliceList (pre ++ mid ++ suf) a b = mid := by
  subst ha
  subst hb
  exact sliceList_exact pre mid suf

theorem addKey_fold (K : List (List Nat)) : ∀ acc, K.Nodup → (∀ x ∈ K, x ∉ acc) →
    K.foldl addKey acc = acc ++ K := by
  induction K with
  | nil => intro acc _ _; simp
  | cons x Ks ih =>
    intro acc hnd hdis
    have hx : x ∉ acc := hdis x (by simp)
    have hstep : addKey acc x = acc ++ [x] := by
      unfold addKey
      rw [if_neg hx]
    rw [List.foldl_cons, hstep]
    rw [ih (acc ++ [x]) (List.Nodup.of_cons hnd) ?hdis2]
    · simp
    case hdis2 =>
      intro y hy
      simp only [List.mem_append, List.mem_singleton]
      rintro (hya | hyx)
      · exact hdis y (by simp [hy]) hya
      · subst hyx
        exact (List.nodup_cons.mp hnd).1 hy

theorem addKey_fold_sub (K : List (List Nat)) : ∀ acc, (∀ x ∈ K, x ∈ acc) →
    K.foldl addKey acc = acc := by
  induction K with
  | nil => intro acc _; rfl
  | cons x Ks ih =>
    intro acc hsub
    have hstep : addKey acc x = acc := by
      unfold addKey
      rw [if_pos (hsub x (by simp))]
    rw [List.foldl_cons, hstep]
    exact ih acc (fun y hy => hsub y (by simp [hy]))

theorem dict_fold_addKey (d : List (List Nat × Element)) (acc : List (List Nat)) :
    d.foldl (fun a kv => addKey a kv.1) acc = (d.map Prod.fst).foldl addKey acc := by
  induction d generalizing acc with
  | nil => rfl
  | cons kv rest ih => simp [List.foldl_cons, ih]

theorem keysUnion_eq {p0 : UsmPage} {rest : List UsmPage}
    (hsame : ∀ p ∈ p0 :: rest, p.dict.map Prod.fst = p0.dict.map Prod.fst)
    (hnd : (p0.dict.map Prod.fst).Nodup) :
    keysUnion (p0 :: rest) = p0.dict.map Prod.fst := by
  unfold keysUnion
  rw [List.foldl_cons]
  rw [dict_fold_addKey]
  rw [addKey_fold _ [] hnd (by simp)]
  simp only [List.nil_append]
  have : ∀ (ps : List UsmPage), (∀ p ∈ ps, p.dict.map Prod.fst = p0.dict.map Prod.fst) →
      ps.foldl (fun acc p => p.dict.foldl (fun a kv => addKey a kv.1) acc)
        (p0.dict.map Prod.fst) = p0.dict.map Prod.fst := by
    intro ps
    induction ps with
    | nil => intro _; rfl
    | cons q qs ihq =>
      intro hq
      rw [List.foldl_cons, dict_fold_addKey, hq q (by simp),
        addKey_fold_sub _ _ (fun x hx => hx)]
      exact ihq (fun p hp => hq p (by simp [hp]))
  exact this rest (fun p hp => hsame p (by simp [hp]))

theorem dictGet_of_mem {d : List (List Nat × Element)} {k : List Nat} {e : Element}
    (hnd : (d.map Prod.fst).Nodup) (hm : (k, e) ∈ d) : dictGet d k = some e := by
  induction d with
  | nil => simp at hm
  | cons kv rest ih =>
    obtain ⟨k0, e0⟩ := kv
    rcases List.mem_cons.mp hm with heq | hm2
    · injection heq with h1 h2
      subst h1
      subst h2
      simp [dictGet]
    · have hne : k0 ≠ k := by
        intro hc
        subst hc
        have : k0 ∈ rest.map Prod.fst := List.mem_map.mpr ⟨(k0, e), hm2, rfl⟩
        exact (List.nodup_cons.mp (by simpa using hnd)).1 this
      simp only [dictGet]
      rw [if_neg hne]
      exact ih (by simpa using (List.nodup_cons.mp (by simpa using hnd)).2) hm2

theorem dictGet_eq_none {d : List (List Nat × Element)} {k : List Nat}
    (h : k ∉ d.map Prod.fst) : dictGet d k = none := by
  induction d with
  | nil => rfl
  | cons kv rest ih =>
    obtain ⟨k0, e0⟩ := kv
    have hne : k0 ≠ k := by
      intro hc
      exact h (by simp [hc])
    simp only [dictGet]
    rw [if_neg hne]
    exact ih (fun hm => h (by simp [hm]))

theorem aligned_of_maps (common : List (List Nat)) :
    ∀ (d0 d : List (List Nat × Element)),
    d.map Prod.fst = d0.map Prod.fst →
    d.map (fun kv => kv.2.type) = d0.map (fun kv => kv.2.type) →
    (∀ k, k ∈ common → dictGet d k = dictGet d0 k) →
    (d0.map Prod.fst).Nodup →
    Aligned common d0 d := by
  intro d0
  induction d0 with
  | nil =>
    intro d hmap _ _ _
    have : d = [] := by
      cases d with
      | nil => rfl
      | cons x xs => simp at hmap
    subst this
    exact List.Forall₂.nil
  | cons kv0 r0 ih =>
    obtain ⟨k0, e0⟩ := kv0
    intro d hmap htype hget hnd
    cases d with
    | nil => simp at hmap
    | cons kv r =>
      obtain ⟨k, e⟩ := kv
      simp only [List.map_cons, List.cons.injEq] at hmap htype
      obtain ⟨hk, hmap2⟩ := hmap
      obtain ⟨ht, htype2⟩ := htype
      subst hk
      refine List.Forall₂.cons ⟨rfl, ht, ?_⟩ ?_
      · intro hc
        have h1 := hget k hc
        simp only [dictGet, if_pos rfl] at h1
        exact Option.some.inj h1
      · apply ih r hmap2 htype2 ?_ (by simpa using (List.nodup_cons.mp (by simpa using hnd)).2)
        intro k' hk'
        have h1 := hget k' hk'
        by_cases hcase : k = k'
        · subst hcase
          have hn0 : k ∉ r0.map Prod.fst := (List.nodup_cons.mp (by simpa using hnd)).1
          have hnr : k ∉ r.map Prod.fst := by rw [hmap2]; exact hn0
          rw [dictGet_eq_none hnr, dictGet_eq_none hn0]
        · simp only [dictGet, if_neg hcase] at h1
          exact h1

theorem commonKeys_vals {p0 : UsmPage} {rest : List UsmPage} {k : List Nat}
    (hc : k ∈ commonKeys (p0 :: rest)) :
    ∀ p ∈ p0 :: rest, dictGet p.dict k = dictGet p0.dict k := by
  unfold commonKeys at hc
  have hflt := List.of_mem_filter hc
  simp only [Bool.and_eq_true, decide_eq_true_eq] at hflt
  have hall := hflt.2
  unfold allPagesSameValue at hall
  simp only [List.all_eq_true] at hall
  intro p hp
  have := hall p hp
  exact eq_of_beq this

theorem internKeys_spec :
    ∀ (keys : List (List Nat)) (sa0 : List Nat),
    keys.Nodup → (∀ k ∈ keys, (0 : Nat) ∉ k) →
    Extends sa0 (internKeys keys sa0).1 ∧
    (∀ k ∈ keys, ∃ off, lookupOff (internKeys keys sa0).2 k = some off ∧
      StrRef (internKeys keys sa0).1 off k) := by
  intro keys
  induction keys with
  | nil =>
    intro sa0 _ _
    exact ⟨Extends.refl _, by simp⟩
  | cons k ks ih =>
    intro sa0 hnd h0
    obtain ⟨hext, hoffs⟩ := ih (sa0 ++ k ++ [0]) (List.Nodup.of_cons hnd)
      (fun k2 hk2 => h0 k2 (by simp [hk2]))
    have hext0 : Extends sa0 (internKeys (k :: ks) sa0).1 := by
      show Extends sa0 (internKeys ks (sa0 ++ k ++ [0])).1
      exact (Extends.trans ⟨k ++ [0], by simp⟩ hext)
    refine ⟨hext0, ?_⟩
    intro k2 hk2
    rcases List.mem_cons.mp hk2 with heq | hmem
    · subst heq
      refine ⟨sa0.length, ?_, ?_⟩
      · show lookupOff ((k2, sa0.length) :: (internKeys ks (sa0 ++ k2 ++ [0])).2) k2 = _
        simp [lookupOff]
      · obtain ⟨t, ht⟩ := hext
        refine ⟨h0 k2 (by simp), sa0, t, ?_, rfl⟩
        show (internKeys ks (sa0 ++ k2 ++ [0])).1 = sa0 ++ k2 ++ 0 :: t
        rw [ht]
        simp
    · have hne : k ≠ k2 := by
        intro hcc
        subst hcc
        exact (List.nodup_cons.mp hnd).1 hmem
      obtain ⟨off, hlk, href⟩ := hoffs k2 hmem
      refine ⟨off, ?_, href⟩
      show lookupOff ((k, sa0.length) :: (internKeys ks (sa0 ++ k ++ [0])).2) k2 = _
      simp only [lookupOff]
      rw [if_neg hne]
      exact hlk

theorem uniqueLen_aligned (common : List (List Nat)) :
    ∀ (es0 es : List (List Nat × Element)), Aligned common es0 es →
    uniqueLen common es = uniqueLen common es0 := by
  intro es0
  induction es0 with
  | nil =>
    intro es h
    cases h
    rfl
  | cons kv0 r0 ih =>
    obtain ⟨k0, e0⟩ := kv0
    intro es h
    cases h with
    | cons h1 hrest =>
      rename_i kv r
      obtain ⟨k, e⟩ := kv
      obtain ⟨hk, ht, _⟩ := h1
      simp only at hk ht
      subst hk
      simp only [uniqueLen, ih r hrest, ht]

theorem emitPages_rest_spec (common : List (List Nat)) (nameOffs : List (List Nat × Nat)) :
    ∀ (pages : List UsmPage) (st st' : EmitSt),
    emitPages common nameOffs false pages st = some st' →
    (∀ p ∈ pages, ∀ k e, (k, e) ∈ p.dict → ValidVal e.type e.val) →
    Extends st.strArr st'.strArr ∧ Extends st.byteArr st'.byteArr ∧
    st'.shared = st.shared ∧
    ∃ usegs : List (List Nat),
      st'.unique = st.unique ++ usegs.flatten ∧
      usegs.length = pages.length ∧
      (∀ SA BA, Extends st'.strArr SA → Extends st'.byteArr BA →
        List.Forall₂ (fun (p : UsmPage) useg => UniqueDesc SA BA common p.dict useg)
          pages usegs) := by
  intro pages
  induction pages with
  | nil =>
    intro st st' hemit _
    have hst : st' = st := by
      simp only [emitPages] at hemit
      exact (Option.some.inj hemit).symm
    subst hst
    exact ⟨Extends.refl _, Extends.refl _, rfl, [], by simp, rfl,
      fun SA BA _ _ => List.Forall₂.nil⟩
  | cons p rest ih =>
    intro st st' hemit hvalid
    simp only [emitPages] at hemit
    cases hee : emitEntries false common nameOffs p.dict st with
    | none => rw [hee] at hemit; exact absurd hemit (by simp)
    | some st1 =>
      rw [hee] at hemit
      simp only at hemit
      obtain ⟨hes1, heb1, hsh1, ⟨useg0, huseg0⟩, hdesc0⟩ :=
        emitEntries_later_spec common nameOffs p.dict st st1 hee
          (fun k e hm => hvalid p (by simp) k e hm)
      obtain ⟨hes2, heb2, hsh2, usegs, hjoin, hlen, hforall⟩ :=
        ih st1 st' hemit (fun q hq k e hm => hvalid q (by simp [hq]) k e hm)
      refine ⟨hes1.trans hes2, heb1.trans heb2, by rw [hsh2, hsh1], useg0 :: usegs, ?_, ?_, ?_⟩
      · rw [hjoin, huseg0]
        simp
      · simp [hlen]
      · intro SA BA hSA hBA
        refine List.Forall₂.cons ?_ (hforall SA BA hSA hBA)
        have hd := hdesc0 SA BA (hes2.trans hSA) (heb2.trans hBA)
        have : st1.unique.drop st.unique.length = useg0 := by
          rw [huseg0]
          exact drop_append_exact _ _ _ rfl
        rw [this] at hd
        exact hd

theorem decodePages_spec (SA BA : List Nat) (common : List (List Nat)) (pn : List Nat)
    (es0 : List (List Nat × Element)) (shF : List Nat)
    (hsch : SchemaDesc SA BA common es0 shF) :
    ∀ (pages : List UsmPage) (usegs : List (List Nat)),
    List.Forall₂ (fun (p : UsmPage) useg => UniqueDesc SA BA common p.dict useg) pages usegs →
    (∀ p ∈ pages, Aligned common es0 p.dict) →
    (∀ p ∈ pages, FilenameSafe p.dict) →
    (∀ p ∈ pages, (p.dict.map Prod.fst).Nodup) →
    (∀ p ∈ pages, p.name = pn) →
    decodePages pages.length shF usegs.flatten SA BA es0.length pn = some (pages, []) := by
  intro pages
  induction pages with
  | nil =>
    intro usegs hforall _ _ _ _
    cases hforall
    rfl
  | cons p rest ih =>
    intro usegs hforall halign hfn hnd hname
    cases hforall with
    | cons h1 hrest =>
      rename_i useg0 usegs2
      have hjoin : (useg0 :: usegs2).flatten = useg0 ++ usegs2.flatten := by simp
      rw [hjoin]
      have hdec := decodeElems_spec SA BA common es0 p.dict shF useg0 usegs2.flatten
        ⟨pn, []⟩ (halign p (by simp)) hsch h1 (hfn p (by simp))
        (by simpa using hnd p (by simp))
      show decodePages (rest.length + 1) shF (useg0 ++ usegs2.flatten) SA BA es0.length pn = _
      simp only [decodePages, hdec]
      rw [ih usegs2 hrest (fun q hq => halign q (by simp [hq]))
        (fun q hq => hfn q (by simp [hq])) (fun q hq => hnd q (by simp [hq]))
        (fun q hq => hname q (by simp [hq]))]
      have hpage : (⟨pn, [] ++ p.dict⟩ : UsmPage) = p := by
        cases p with
        | mk nm d =>
          have hpn : nm = pn := by simpa using hname ⟨nm, d⟩ (by simp)
          simp [hpn]
      rw [hpage]

theorem forall2_flatten_len {SA BA : List Nat} {common : List (List Nat)} (L : Nat) :
    ∀ (ps : List UsmPage) (us : List (List Nat)),
    List.Forall₂ (fun (p : UsmPage) u => UniqueDesc SA BA common p.dict u) ps us →
    (∀ p ∈ ps, uniqueLen common p.dict = L) →
    us.flatten.length = ps.length * L := by
  intro ps
  induction ps with
  | nil =>
    intro us h _
    cases h
    simp
  | cons p pr ih =>
    intro us h hL
    cases h with
    | cons h1 h2 =>
      rename_i u ur
      simp only [List.flatten_cons, List.length_append, List.length_cons]
      rw [UniqueDesc.len h1, hL p (by simp), ih ur h2 (fun q hq => hL q (by simp [hq]))]
      ring

/-- C1 counterexample: the claim quantifies over element values of all
twelve element types, but an I8 element with value -1 does not round
trip: the encoder writes the signed byte 0xFF and the decoder reads the
byte unsigned (`current_array[0]`), returning 255. -/
theorem claim1_cex :
    (packPages [⟨[0x54], [([0x61], ⟨.vint (-1), .CHAR⟩)]⟩] 0).bind getPages
      = some [⟨[0x54], [([0x61], ⟨.vint 255, .CHAR⟩)]⟩] ∧
    ((⟨[0x54], [([0x61], ⟨.vint 255, .CHAR⟩)]⟩ : UsmPage)
      ≠ ⟨[0x54], [([0x61], ⟨.vint (-1), .CHAR⟩)]⟩) := by
  constructor
  · decide
  · decide

/-- C1 (amended): `get_pages(pack_pages(P, enc), enc) == P` for every
valid list of pages P — nonempty, all pages with the same name and the
same keys in the same insertion order with consistent column types —
whose element values are of the ten non-floating-point element types
with I8 values restricted to [0, 127] (the decoder reads I8 unsigned),
strings NUL-free, and any value under the key `filename` a
backslash-free string (`UsmPage.update` rewrites backslashes and
rejects non-strings on decode).  F32 does not round trip (the decoder
wraps it in a tuple) and F64 is rejected by the encoder, so both are
outside the model; text values are compared as their encoded bytes. -/
theorem claim1_page_roundtrip (p0 : UsmPage) (rest : List UsmPage) (sp : Nat) (bs : List Nat)
    (hname : ∀ p ∈ p0 :: rest, p.name = p0.name)
    (hname0 : (0 : Nat) ∉ p0.name)
    (hkeys0 : ∀ k ∈ p0.dict.map Prod.fst, (0 : Nat) ∉ k)
    (hnodup : (p0.dict.map Prod.fst).Nodup)
    (hsamek : ∀ p ∈ p0 :: rest, p.dict.map Prod.fst = p0.dict.map Prod.fst)
    (hsamet : ∀ p ∈ p0 :: rest,
      p.dict.map (fun kv => kv.2.type) = p0.dict.map (fun kv => kv.2.type))
    (hvalid : ∀ p ∈ p0 :: rest, ∀ k e, (k, e) ∈ p.dict → ValidVal e.type e.val)
    (hfnall : ∀ p ∈ p0 :: rest, FilenameSafe p.dict)
    (hpack : packPages (p0 :: rest) sp = some bs) :
    getPages bs = some (p0 :: rest) := by
  have hc1 : (p0 :: rest).all (fun p => p.name == p0.name) = true := by
    simp only [List.all_eq_true, beq_iff_eq]
    exact hname
  have hc2 : (p0 :: rest).all (fun p => p.dict.length == p0.dict.length) = true := by
    simp only [List.all_eq_true, beq_iff_eq]
    intro p hp
    have := congrArg List.length (hsamek p hp)
    simpa using this
  have hc3 : keysUnion (p0 :: rest) = p0.dict.map Prod.fst := keysUnion_eq hsamek hnodup
  simp only [packPages] at hpack
  rw [hc1] at hpack
  rw [if_neg (by simp)] at hpack
  rw [hc2] at hpack
  rw [if_neg (by simp)] at hpack
  rw [hc3] at hpack
  rw [if_neg (by simp)] at hpack
  set K : List (List Nat) := p0.dict.map Prod.fst with hK
  set sa0 : List Nat := nullTag ++ p0.name ++ [0] with hsa0
  set common : List (List Nat) := commonKeys (p0 :: rest) with hcommon
  set nameOffs : List (List Nat × Nat) := (internKeys K sa0).2 with hnameOffs
  set intPool : List Nat := (internKeys K sa0).1 with hintPool
  obtain ⟨hextInt, hoffsInt⟩ := internKeys_spec K sa0 hnodup hkeys0
  cases hemit : emitPages common nameOffs true (p0 :: rest) ⟨[], [], intPool, []⟩ with
  | none =>
    rw [hemit] at hpack
    exact absurd hpack (by simp)
  | some st =>
    rw [hemit] at hpack
    simp only at hpack
    simp only [emitPages] at hemit
    cases hee : emitEntries true common nameOffs p0.dict ⟨[], [], intPool, []⟩ with
    | none => rw [hee] at hemit; exact absurd hemit (by simp)
    | some st1 =>
      rw [hee] at hemit
      simp only at hemit
      obtain ⟨hes1, heb1, ⟨seg, hseg⟩, ⟨useg0, huseg0⟩, hdesc1⟩ :=
        emitEntries_first_spec common nameOffs intPool p0.dict _ st1 hee
          (fun k e hm => hvalid p0 (by simp) k e hm)
          (fun k e hm => hoffsInt k (List.mem_map.mpr ⟨(k, e), hm, rfl⟩))
          (Extends.refl _)
      obtain ⟨hes2, heb2, hsh2, usegs2, hjoin, hlen2, hforall2⟩ :=
        emitPages_rest_spec common nameOffs rest st1 st hemit
          (fun q hq k e hm => hvalid q (by simp [hq]) k e hm)
      by_cases hguard : 24 + st.shared.length + st.unique.length
            + (st.strArr ++ List.replicate sp 0).length + st.byteArr.length < 2 ^ 32 ∧
          24 + st.shared.length < 2 ^ 32 ∧
          24 + st.shared.length + st.unique.length < 2 ^ 32 ∧
          24 + st.shared.length + st.unique.length
            + (st.strArr ++ List.replicate sp 0).length < 2 ^ 32 ∧
          p0.dict.length < 2 ^ 16 ∧
          st.unique.length / (p0 :: rest).length < 2 ^ 16 ∧
          (p0 :: rest).length < 2 ^ 32
      case neg =>
        rw [if_neg hguard] at hpack
        exact absurd hpack (by simp)
      case pos =>
        rw [if_pos hguard] at hpack
        have hbs : bs = utfMagic
            ++ toBytesBE 4 (24 + st.shared.length + st.unique.length
              + (st.strArr ++ List.replicate sp 0).length + st.byteArr.length)
            ++ toBytesBE 4 (24 + st.shared.length)
            ++ toBytesBE 4 (24 + st.shared.length + st.unique.length)
            ++ toBytesBE 4 (24 + st.shared.length + st.unique.length
              + (st.strArr ++ List.replicate sp 0).length)
            ++ toBytesBE 4 nullTag.length
            ++ toBytesBE 2 p0.dict.length
            ++ toBytesBE 2 (st.unique.length / (p0 :: rest).length)
            ++ toBytesBE 4 (p0 :: rest).length
            ++ st.shared ++ st.unique ++ (st.strArr ++ List.replicate sp 0)
            ++ st.byteArr := (Option.some.inj hpack).symm
        clear hpack
        set sh := st.shared with hsh
        set un := st.unique with hun
        set SF := st.strArr ++ List.replicate sp 0 with hSF
        set bar := st.byteArr with hbar
        set nP := (p0 :: rest).length with hnP
        set dsv := 24 + sh.length + un.length + SF.length + bar.length with hdsv
        set uaov := 24 + sh.length with huaov
        set sov := 24 + sh.length + un.length with hsov
        set baov := 24 + sh.length + un.length + SF.length with hbaov
        set uspv := un.length / nP with huspv
        set F1 := toBytesBE 4 dsv with hF1
        set F2 := toBytesBE 4 uaov with hF2
        set F3 := toBytesBE 4 sov with hF3
        set F4 := toBytesBE 4 baov with hF4
        set F5 := toBytesBE 4 nullTag.length with hF5
        set F6 := toBytesBE 2 p0.dict.length with hF6
        set F7 := toBytesBE 2 uspv with hF7
        set F8 := toBytesBE 4 nP with hF8
        have hlF1 : F1.length = 4 := length_toBytesBE _ _
        have hlF2 : F2.length = 4 := length_toBytesBE _ _
        have hlF3 : F3.length = 4 := length_toBytesBE _ _
        have hlF4 : F4.length = 4 := length_toBytesBE _ _
        have hlF5 : F5.length = 4 := length_toBytesBE _ _
        have hlF6 : F6.length = 2 := length_toBytesBE _ _
        have hlF7 : F7.length = 2 := length_toBytesBE _ _
        have hlF8 : F8.length = 4 := length_toBytesBE _ _
        have hlmagic : utfMagic.length = 4 := rfl
        -- prelude reads
        have htake4 : bs.take 4 = utfMagic := by
          have hb2 : bs = utfMagic ++ (F1 ++ (F2 ++ (F3 ++ (F4 ++ (F5 ++ (F6 ++ (F7
              ++ (F8 ++ (sh ++ (un ++ (SF ++ bar))))))))))) := by
            rw [hbs]
            simp
          rw [hb2]
          exact take_append_exact _ _ 4 hlmagic
        have hr1 : sliceList bs 4 8 = F1 := by
          have hb2 : bs = utfMagic ++ F1 ++ (F2 ++ (F3 ++ (F4 ++ (F5 ++ (F6 ++ (F7
              ++ (F8 ++ (sh ++ (un ++ (SF ++ bar)))))))))) := by
            rw [hbs]
            simp
          rw [hb2]
          exact sliceList_at _ _ _ 4 8 hlmagic (by omega)
        have hr2 : sliceList bs 8 12 = F2 := by
          have hb2 : bs = (utfMagic ++ F1) ++ F2 ++ (F3 ++ (F4 ++ (F5 ++ (F6 ++ (F7
              ++ (F8 ++ (sh ++ (un ++ (SF ++ bar))))))))) := by
            rw [hbs]
            simp
          rw [hb2]
          exact sliceList_at _ _ _ 8 12 (by simp [hlmagic, hlF1]) (by omega)
        have hr3 : sliceList bs 12 16 = F3 := by
          have hb2 : bs = (utfMagic ++ F1 ++ F2) ++ F3 ++ (F4 ++ (F5 ++ (F6 ++ (F7
              ++ (F8 ++ (sh ++ (un ++ (SF ++ bar)))))))) := by
            rw [hbs]
            simp
          rw [hb2]
          exact sliceList_at _ _ _ 12 16 (by simp [hlmagic, hlF1, hlF2]) (by omega)
        have hr4 : sliceList bs 16 20 = F4 := by
          have hb2 : bs = (utfMagic ++ F1 ++ F2 ++ F3) ++ F4 ++ (F5 ++ (F6 ++ (F7
              ++ (F8 ++ (sh ++ (un ++ (SF ++ bar))))))) := by
            rw [hbs]
            simp
          rw [hb2]
          exact sliceList_at _ _ _ 16 20 (by simp [hlmagic, hlF1, hlF2, hlF3]) (by omega)
        have hr5 : sliceList bs 20 24 = F5 := by
          have hb2 : bs = (utfMagic ++ F1 ++ F2 ++ F3 ++ F4) ++ F5 ++ (F6 ++ (F7
              ++ (F8 ++ (sh ++ (un ++ (SF ++ bar)))))) := by
            rw [hbs]
            simp
          rw [hb2]
          exact sliceList_at _ _ _ 20 24 (by simp [hlmagic, hlF1, hlF2, hlF3, hlF4])
            (by omega)
        have hr6 : sliceList bs 24 26 = F6 := by
          have hb2 : bs = (utfMagic ++ F1 ++ F2 ++ F3 ++ F4 ++ F5) ++ F6 ++ (F7
              ++ (F8 ++ (sh ++ (un ++ (SF ++ bar))))) := by
            rw [hbs]
            simp
          rw [hb2]
          exact sliceList_at _ _ _ 24 26 (by simp [hlmagic, hlF1, hlF2, hlF3, hlF4, hlF5])
            (by omega)
        have hr7 : sliceList bs 26 28 = F7 := by
          have hb2 : bs = (utfMagic ++ F1 ++ F2 ++ F3 ++ F4 ++ F5 ++ F6) ++ F7
              ++ (F8 ++ (sh ++ (un ++ (SF ++ bar)))) := by
            rw [hbs]
            simp
          rw [hb2]
          exact sliceList_at _ _ _ 26 28
            (by simp [hlmagic, hlF1, hlF2, hlF3, hlF4, hlF5, hlF6]) (by omega)
        have hr8 : sliceList bs 28 32 = F8 := by
          have hb2 : bs = (utfMagic ++ F1 ++ F2 ++ F3 ++ F4 ++ F5 ++ F6 ++ F7) ++ F8
              ++ (sh ++ (un ++ (SF ++ bar))) := by
            rw [hbs]
            simp
          rw [hb2]
          exact sliceList_at _ _ _ 28 32
            (by simp [hlmagic, hlF1, hlF2, hlF3, hlF4, hlF5, hlF6, hlF7]) (by omega)
        have hv1 : beVal (sliceList bs 4 8) = dsv := by
          rw [hr1, hF1]
          exact beVal_toBytesBE (k := 4) (by simpa using hguard.1)
        have hv2 : beVal (sliceList bs 8 12) = uaov := by
          rw [hr2, hF2]
          exact beVal_toBytesBE (k := 4) (by simpa using hguard.2.1)
        have hv3 : beVal (sliceList bs 12 16) = sov := by
          rw [hr3, hF3]
          exact beVal_toBytesBE (k := 4) (by simpa using hguard.2.2.1)
        have hv4 : beVal (sliceList bs 16 20) = baov := by
          rw [hr4, hF4]
          exact beVal_toBytesBE (k := 4) (by simpa using hguard.2.2.2.1)
        have hv5 : beVal (sliceList bs 20 24) = nullTag.length := by
          rw [hr5, hF5]
          exact beVal_toBytesBE (k := 4) (by norm_num [nullTag])
        have hv6 : beVal (sliceList bs 24 26) = p0.dict.length := by
          rw [hr6, hF6]
          exact beVal_toBytesBE (k := 2) (by simpa using hguard.2.2.2.2.1)
        have hv7 : beVal (sliceList bs 26 28) = uspv := by
          rw [hr7, hF7]
          exact beVal_toBytesBE (k := 2) (by simpa using hguard.2.2.2.2.2.1)
        have hv8 : beVal (sliceList bs 28 32) = nP := by
          rw [hr8, hF8]
          exact beVal_toBytesBE (k := 4) (by simpa using hguard.2.2.2.2.2.2)
        -- alignment and uniqueness facts
        have halignAll : ∀ p ∈ p0 :: rest, Aligned common p0.dict p.dict := by
          intro p hp
          exact aligned_of_maps common p0.dict p.dict (hsamek p hp) (hsamet p hp)
            (fun k hk => commonKeys_vals hk p hp) hnodup
        have hndAll : ∀ p ∈ p0 :: rest, (p.dict.map Prod.fst).Nodup := by
          intro p hp
          rw [hsamek p hp]
          exact hnodup
        have hnameAll : ∀ p ∈ p0 :: rest, p.name = p0.name := hname
        have hextSF : Extends st.strArr SF := ⟨List.replicate sp 0, rfl⟩
        have hextSF1 : Extends st1.strArr SF := hes2.trans hextSF
        have hextBar1 : Extends st1.byteArr bar := heb2
        have hst0sh : (⟨[], [], intPool, []⟩ : EmitSt).shared = [] := rfl
        have hst0un : (⟨[], [], intPool, []⟩ : EmitSt).unique = [] := rfl
        obtain ⟨hsch0, huni0⟩ := hdesc1 SF bar hextSF1 hextBar1
        rw [hst0sh] at hsch0
        rw [hst0un] at huni0
        simp only [List.length_nil, List.drop_zero] at hsch0 huni0
        have hsch : SchemaDesc SF bar common p0.dict sh := by
          rw [hsh2]
          exact hsch0
        have hforallF : List.Forall₂
            (fun (p : UsmPage) useg => UniqueDesc SF bar common p.dict useg)
            (p0 :: rest) (st1.unique :: usegs2) :=
          List.Forall₂.cons huni0 (hforall2 SF bar hextSF (Extends.refl _))
        have hL : ∀ p ∈ p0 :: rest, uniqueLen common p.dict = uniqueLen common p0.dict := by
          intro p hp
          exact uniqueLen_aligned common p0.dict p.dict (halignAll p hp)
        have hUnLen : un.length = nP * uniqueLen common p0.dict := by
          have hf := forall2_flatten_len (uniqueLen common p0.dict) (p0 :: rest)
            (st1.unique :: usegs2) hforallF hL
          have hflat : (st1.unique :: usegs2).flatten = un := by
            rw [hjoin]
            simp
          rw [← hflat]
          exact hf
        have hnPpos : 0 < nP := by rw [hnP]; simp
        have huspnp : uspv * nP = un.length := by
          rw [huspv, hUnLen, Nat.mul_div_cancel_left _ hnPpos]
          ring
        -- region reads
        have hPR : (utfMagic ++ F1 ++ F2 ++ F3 ++ F4 ++ F5 ++ F6 ++ F7 ++ F8).length
            = 32 := by
          simp [hlmagic, hlF1, hlF2, hlF3, hlF4, hlF5, hlF6, hlF7, hlF8]
        have hrsh : sliceList bs 0x20 (8 + uaov) = sh := by
          have hb2 : bs = (utfMagic ++ F1 ++ F2 ++ F3 ++ F4 ++ F5 ++ F6 ++ F7 ++ F8)
              ++ sh ++ (un ++ (SF ++ bar)) := by
            rw [hbs]
            simp
          rw [hb2]
          exact sliceList_at _ _ _ 0x20 (8 + uaov) hPR (by rw [huaov]; omega)
        have hrun : sliceList bs (8 + uaov) (8 + uaov + uspv * nP) = un := by
          have hb2 : bs = ((utfMagic ++ F1 ++ F2 ++ F3 ++ F4 ++ F5 ++ F6 ++ F7 ++ F8)
              ++ sh) ++ un ++ (SF ++ bar) := by
            rw [hbs]
            simp
          rw [hb2]
          refine sliceList_at _ _ _ (8 + uaov) (8 + uaov + uspv * nP) ?_ ?_
          · simp only [List.length_append, hPR]
            rw [huaov]
            omega
          · rw [huspnp]
        have hrSF : sliceList bs (8 + sov) (8 + baov) = SF := by
          have hb2 : bs = ((utfMagic ++ F1 ++ F2 ++ F3 ++ F4 ++ F5 ++ F6 ++ F7 ++ F8)
              ++ sh ++ un) ++ SF ++ bar := by
            rw [hbs]
          rw [hb2]
          refine sliceList_at _ _ _ (8 + sov) (8 + baov) ?_ ?_
          · simp only [List.length_append, hPR]
            rw [hsov]
            omega
          · rw [hsov, hbaov]
            omega
        have hrbar : sliceList bs (8 + baov) (8 + dsv) = bar := by
          have hb2 : bs = ((utfMagic ++ F1 ++ F2 ++ F3 ++ F4 ++ F5 ++ F6 ++ F7 ++ F8)
              ++ sh ++ un ++ SF) ++ bar ++ [] := by
            rw [hbs]
            simp
          rw [hb2]
          refine sliceList_at _ _ _ (8 + baov) (8 + dsv) ?_ ?_
          · simp only [List.length_append, hPR]
            rw [hbaov]
            omega
          · rw [hbaov, hdsv]
            omega
        -- page-name read
        have hrcs : readCString SF nullTag.length = some p0.name := by
          have hchain : Extends sa0 SF :=
            (hextInt.trans (hes1.trans hes2)).trans hextSF
          obtain ⟨ext, hext⟩ := hchain
          have hshape : SF = nullTag ++ p0.name ++ 0 :: ext := by
            rw [hext, hsa0]
            simp
          rw [hshape]
          exact readCString_spec hname0
        -- decode
        have hdecode := decodePages_spec SF bar common p0.name p0.dict sh hsch
          (p0 :: rest) (st1.unique :: usegs2) hforallF halignAll hfnall hndAll hnameAll
        have hflat2 : (st1.unique :: usegs2).flatten = un := by
          rw [hjoin]
          simp
        rw [hflat2] at hdecode
        -- assemble getPages
        simp only [getPages]
        rw [htake4]
        rw [if_neg (fun hne => hne rfl)]
        rw [hv1, hv2, hv3, hv4, hv5, hv6, hv7, hv8]
        rw [hrSF, hrcs]
        simp only
        rw [hrsh, hrun, hrbar]
        rw [hdecode]

theorem claim1_witness :
    packPages [⟨[0x54], [([0x61], ⟨EValue.vint 5, ElementType.INT⟩)]⟩] 0
      = some ((packPages [⟨[0x54], [([0x61], ⟨EValue.vint 5, ElementType.INT⟩)]⟩] 0).getD [])
    ∧ getPages ((packPages
        [⟨[0x54], [([0x61], ⟨EValue.vint 5, ElementType.INT⟩)]⟩] 0).getD [])
      = some [⟨[0x54], [([0x61], ⟨EValue.vint 5, ElementType.INT⟩)]⟩] := by
  refine ⟨by decide, ?_⟩
  refine claim1_page_roundtrip ⟨[0x54], [([0x61], ⟨EValue.vint 5, ElementType.INT⟩)]⟩ [] 0
    _ ?_ ?_ ?_ ?_ ?_ ?_ ?_ ?_ (by decide)
  · intro p hp
    simp only [List.mem_singleton] at hp
    rw [hp]
  · decide
  · decide
  · decide
  · intro p hp
    simp only [List.mem_singleton] at hp
    rw [hp]
  · intro p hp
    simp only [List.mem_singleton] at hp
    rw [hp]
  · intro p hp k e hke
    simp only [List.mem_singleton] at hp
    subst hp
    simp only [List.mem_singleton, Prod.mk.injEq] at hke
    rw [hke.2]
    trivial
  · intro p hp
    simp only [List.mem_singleton] at hp
    subst hp
    intro k e hke hkf
    simp only [List.mem_singleton, Prod.mk.injEq] at hke
    rw [hke.1] at hkf
    exact absurd hkf (by decide)

/-! ## Chunk layer: `chunk.py` and `types.py`

`ChunkType` and `PayloadType` mirror the enums of `types.py`; `UsmChunk`,
`UsmChunk.pack`, `UsmChunk.from_bytes` and `UsmChunk.__len__` mirror
`chunk.py`.  A callable `padding` is modelled by `PadSpec.fn`.  Python
`int.to_bytes` overflow is modelled by the range guard in `chunkPack`;
exceptions raised by `from_bytes` (unknown signature, malformed page table,
out-of-range single-byte reads) are modelled by `Option.none`.  Python byte
indexing `chunk[i]` is total only for `i < len`, hence the `0x10` length
guard; slices never raise and are modelled by `pySlice`, which also follows
Python in interpreting a negative stop as counting from the end. -/

inductive ChunkType where
  | INFO
  | VIDEO
  | AUDIO
  | ALPHA
  | SUBTITLE
  | CUE
  | SFSH
  | AHX
  | USR
  | PST
deriving DecidableEq

/-- The four signature bytes of each chunk type (`types.py`). -/
def ChunkType.value : ChunkType → List Nat
  | .INFO => [0x43, 0x52, 0x49, 0x44]
  | .VIDEO => [0x40, 0x53, 0x46, 0x56]
  | AUDIO => [0x40, 0x53, 0x46, 0x41]
  | .ALPHA => [0x40, 0x41, 0x4C, 0x50]
  | .SUBTITLE => [0x40, 0x53, 0x42, 0x54]
  | .CUE => [0x40, 0x43, 0x55, 0x45]
  | .SFSH => [0x53, 0x46, 0x53, 0x48]
  | .AHX => [0x40, 0x41, 0x48, 0x58]
  | .USR => [0x40, 0x55, 0x53, 0x52]
  | .PST => [0x40, 0x50, 0x53, 0x54]

/-- Declaration order of the `ChunkType` enum members. -/
def chunkTypeList : List ChunkType :=
  [.INFO, .VIDEO, ChunkType.AUDIO, .ALPHA, .SUBTITLE, .CUE, .SFSH, .AHX, .USR, .PST]

/-- `ChunkType.from_bytes`: first enum member whose value equals the first
four bytes; `ValueError` on no match. -/
def chunkTypeFromBytes (data : List Nat) : Option ChunkType :=
  chunkTypeList.find? (fun e => data.take 4 == e.value)

inductive PayloadType where
  | STREAM
  | HEADER
  | SECTION_END
  | METADATA
deriving DecidableEq

def PayloadType.value : PayloadType → Nat
  | .STREAM => 0
  | .HEADER => 1
  | .SECTION_END => 2
  | .METADATA => 3

/-- `PayloadType.from_int`. -/
def payloadTypeFromInt (v : Nat) : Option PayloadType :=
  [PayloadType.STREAM, .HEADER, .SECTION_END, .METADATA].find?
    (fun e => v == e.value)

/-- A chunk payload is raw bytes or a list of pages. -/
inductive ChunkPayload where
  | raw (bs : List Nat)
  | pages (ps : List UsmPage)

/-- `UsmChunk._padding`: a fixed integer or a callable. -/
inductive PadSpec where
  | fixed (n : Nat)
  | fn (f : Nat → Nat)

structure UsmChunk where
  chunkType : ChunkType
  payloadType : PayloadType
  payload : ChunkPayload
  frameRate : Nat
  frameTime : Nat
  padSpec : PadSpec
  channelNumber : Nat
  payloadOffset : Nat

/-- The encoded payload bytes: raw bytes as-is, a page list through
`pack_pages` (which can raise, hence `Option`). -/
def encodedPayload (c : UsmChunk) : Option (List Nat) :=
  match c.payload with
  | .raw bs => some bs
  | .pages ps => packPages ps 0

/-- The `padding` property of `UsmChunk`. -/
def paddingOf (c : UsmChunk) : Option Nat :=
  match c.padSpec with
  | .fixed n => some n
  | .fn f => (encodedPayload c).map (fun p => f (0x20 + p.length))

/-- `UsmChunk.__len__`. -/
def usmChunkLen (c : UsmChunk) : Option Nat :=
  (encodedPayload c).bind fun p =>
    (paddingOf c).map fun pad => 0x20 + p.length + pad

/-- `UsmChunk.pack`.  The guard collects the `int.to_bytes` range
conditions (chunk size as u32, padding as u16, channel number as u8,
frame time and frame rate as u32). -/
def chunkPack (c : UsmChunk) : Option (List Nat) :=
  (encodedPayload c).bind fun payload =>
    (paddingOf c).bind fun padding =>
      let chunksize := 0x18 + payload.length + padding
      if chunksize < 2 ^ 32 ∧ padding < 2 ^ 16 ∧ c.channelNumber < 2 ^ 8
          ∧ c.frameTime < 2 ^ 32 ∧ c.frameRate < 2 ^ 32 then
        some (c.chunkType.value ++ toBytesBE 4 chunksize ++ [0] ++ [0x18]
          ++ toBytesBE 2 padding ++ [c.channelNumber] ++ [0, 0]
          ++ [c.payloadType.value] ++ toBytesBE 4 c.frameTime
          ++ toBytesBE 4 c.frameRate ++ List.replicate 8 0 ++ payload
          ++ List.replicate padding 0)
      else none

/-- Python slice `xs[start:stop]` with a non-negative start and an `Int`
stop: a negative stop counts from the end, and the result clamps to the
list. -/
def pySlice (xs : List Nat) (start : Nat) (stop : Int) : List Nat :=
  let st : Int := if stop < 0 then (xs.length : Int) + stop else stop
  if st ≤ 0 then [] else sliceList xs start st.toNat

/-- Modelled from the spec: `is_payload_list_pages` is imported from
`wannacri.usm.tools` but absent from the sources.  Per the spec it tests
whether the given bytes start with the ASCII `@UTF` magic. -/
def is_payload_list_pages (bs : List Nat) : Bool :=
  bs.take 4 == utfMagic

/-- `UsmChunk.from_bytes`.  Reading the single bytes at `0x9`, `0xC` and
`0xF` requires at least `0x10` bytes of input; all other reads are
slices. -/
def chunkFromBytes (chunk : List Nat) : Option UsmChunk :=
  if chunk.length < 0x10 then none
  else
    (chunkTypeFromBytes (chunk.take 4)).bind fun ct =>
      let chunksize := beVal (sliceList chunk 0x4 0x8)
      let payload_offset := chunk.getD 0x9 0
      let padding_size := beVal (sliceList chunk 0xA 0xC)
      let channel_number := chunk.getD 0xC 0
      let frame_time := beVal (sliceList chunk 0x10 0x14)
      let frame_rate := beVal (sliceList chunk 0x14 0x18)
      let payload_begin := 0x08 + payload_offset
      let payload_size : Int :=
        (chunksize : Int) - (padding_size : Int) - (payload_offset : Int)
      let payload_raw := pySlice chunk payload_begin (payload_begin + payload_size)
      (payloadTypeFromInt ((chunk.getD 0xF 0) % 4)).bind fun pt =>
        (if is_payload_list_pages (payload_raw.take 4) then
            (getPages payload_raw).map ChunkPayload.pages
          else
            some (ChunkPayload.raw payload_raw)).map fun pl =>
          UsmChunk.mk ct pt pl frame_rate frame_time (PadSpec.fixed padding_size)
            channel_number payload_begin

theorem chunkTypeFromBytes_value (ct : ChunkType) :
    chunkTypeFromBytes ct.value = some ct := by
  cases ct <;> rfl

theorem payloadTypeFromInt_value (pt : PayloadType) :
    payloadTypeFromInt (pt.value % 4) = some pt := by
  cases pt <;> rfl

theorem length_value (ct : ChunkType) : ct.value.length = 4 := by
  cases ct <;> rfl

theorem getD_append_exact (pre : List Nat) (x : Nat) (suf : List Nat) (n : Nat)
    (h : pre.length = n) : (pre ++ x :: suf).getD n 0 = x := by
  subst h
  induction pre with
  | nil => rfl
  | cons a t ih => simpa using ih

/-- C5: a chunk with an integer padding packs to exactly
`0x20 + len(payload) + padding` bytes, its length field at offsets
`0x04..0x07` stores `0x18 + len(payload) + padding` big-endian, and
`__len__` reports the same total. -/
theorem claim5_chunk_length (c : UsmChunk) (pad : Nat) (p bs : List Nat)
    (hpad : c.padSpec = PadSpec.fixed pad)
    (hp : encodedPayload c = some p)
    (hpack : chunkPack c = some bs) :
    bs.length = 0x20 + p.length + pad
    ∧ beVal (sliceList bs 0x4 0x8) = 0x18 + p.length + pad
    ∧ usmChunkLen c = some (0x20 + p.length + pad) := by
  have hpadOf : paddingOf c = some pad := by
    simp [paddingOf, hpad]
  simp only [chunkPack, hp, hpadOf, Option.some_bind] at hpack
  split at hpack
  case isFalse => exact absurd hpack (by simp)
  case isTrue hg =>
  have hbs := (Option.some.inj hpack).symm
  refine ⟨?_, ?_, ?_⟩
  · rw [hbs]
    simp [List.length_append, length_toBytesBE, length_value]
    omega
  · have hb2 : bs = c.chunkType.value ++ toBytesBE 4 (0x18 + p.length + pad)
        ++ ([0] ++ [0x18] ++ toBytesBE 2 pad ++ [c.channelNumber] ++ [0, 0]
          ++ [c.payloadType.value] ++ toBytesBE 4 c.frameTime
          ++ toBytesBE 4 c.frameRate ++ List.replicate 8 0 ++ p
          ++ List.replicate pad 0) := by
      rw [hbs]
      simp
    rw [hb2, sliceList_at _ _ _ 0x4 0x8 (length_value c.chunkType)
      (by rw [length_toBytesBE])]
    exact beVal_toBytesBE (k := 4) (by simpa using hg.1)
  · simp [usmChunkLen, hp, hpadOf]

theorem claim5_witness :
    chunkPack ⟨ChunkType.AUDIO, .STREAM, .raw [7, 8], 30, 0, .fixed 3, 1, 0x18⟩
      = some ((chunkPack ⟨ChunkType.AUDIO, .STREAM, .raw [7, 8], 30, 0, .fixed 3, 1,
          0x18⟩).getD [])
    ∧ (((chunkPack ⟨ChunkType.AUDIO, .STREAM, .raw [7, 8], 30, 0, .fixed 3, 1,
          0x18⟩).getD []).length = 0x20 + [7, 8].length + 3
      ∧ beVal (sliceList ((chunkPack ⟨ChunkType.AUDIO, .STREAM, .raw [7, 8], 30, 0,
          .fixed 3, 1, 0x18⟩).getD []) 0x4 0x8) = 0x18 + [7, 8].length + 3
      ∧ usmChunkLen ⟨ChunkType.AUDIO, .STREAM, .raw [7, 8], 30, 0, .fixed 3, 1, 0x18⟩
          = some (0x20 + [7, 8].length + 3)) :=
  ⟨by decide, claim5_chunk_length _ 3 [7, 8] _ rfl rfl (by decide)⟩

theorem pySlice_ofNat (xs : List Nat) (start n : Nat) :
    pySlice xs start ((n : Int)) = sliceList xs start n := by
  simp only [pySlice]
  have hcond : ¬ ((n : Int) < 0) := by omega
  rw [if_neg hcond]
  by_cases h0 : ((n : Int)) ≤ 0
  · rw [if_pos h0]
    have hn : n = 0 := by omega
    subst hn
    simp [sliceList]
  · rw [if_neg h0]
    norm_num

/-- Evaluation of `UsmChunk.from_bytes` given the values of all its header
reads and a raw (non-`@UTF`) payload. -/
theorem chunkFromBytes_eval (chunk : List Nat) (hlen : ¬ chunk.length < 0x10)
    (ct : ChunkType) (hct : chunkTypeFromBytes (chunk.take 4) = some ct)
    (cs po ps ch ft fr : Nat)
    (hcs : beVal (sliceList chunk 0x4 0x8) = cs)
    (hpo : chunk.getD 0x9 0 = po)
    (hps : beVal (sliceList chunk 0xA 0xC) = ps)
    (hch : chunk.getD 0xC 0 = ch)
    (hft : beVal (sliceList chunk 0x10 0x14) = ft)
    (hfr : beVal (sliceList chunk 0x14 0x18) = fr)
    (pt : PayloadType)
    (hpt : payloadTypeFromInt ((chunk.getD 0xF 0) % 4) = some pt)
    (praw : List Nat)
    (hpraw : pySlice chunk (0x08 + po)
        ((0x08 + po : Nat) + ((cs : Int) - (ps : Int) - (po : Int))) = praw)
    (hnotpages : is_payload_list_pages (praw.take 4) = false) :
    chunkFromBytes chunk
      = some (UsmChunk.mk ct pt (.raw praw) fr ft (.fixed ps) ch (0x08 + po)) := by
  simp only [chunkFromBytes]
  rw [if_neg hlen, hct]
  simp only [Option.some_bind]
  rw [hcs, hpo, hps, hch, hft, hfr, hpt]
  simp only [Option.some_bind]
  rw [hpraw, hnotpages]
  simp

/-- C2: a chunk with a raw payload not starting with the `@UTF` magic, a
fixed padding below `2^16`, a channel number below `2^8`, and frame time
and frame rate each below `2^32` round-trips through `pack` and
`from_bytes`; only `payload_offset` changes, to the constant `0x20`. -/
theorem claim2_chunk_roundtrip (ct : ChunkType) (pt : PayloadType) (bs0 : List Nat)
    (pad ch ft fr : Nat)
    (hnotutf : bs0.take 4 ≠ utfMagic)
    (hch : ch < 2 ^ 8) (hpadlt : pad < 2 ^ 16)
    (hft : ft < 2 ^ 32) (hfr : fr < 2 ^ 32)
    (hsize : 0x18 + bs0.length + pad < 2 ^ 32) :
    (chunkPack (UsmChunk.mk ct pt (.raw bs0) fr ft (.fixed pad) ch 0x18)).bind
        chunkFromBytes
      = some (UsmChunk.mk ct pt (.raw bs0) fr ft (.fixed pad) ch 0x20) := by
  have hpack : chunkPack (UsmChunk.mk ct pt (.raw bs0) fr ft (.fixed pad) ch 0x18)
      = some (ct.value ++ toBytesBE 4 (0x18 + bs0.length + pad) ++ [0] ++ [0x18]
        ++ toBytesBE 2 pad ++ [ch] ++ [0, 0] ++ [pt.value] ++ toBytesBE 4 ft
        ++ toBytesBE 4 fr ++ List.replicate 8 0 ++ bs0
        ++ List.replicate pad 0) := by
    simp only [chunkPack, encodedPayload, paddingOf, Option.some_bind]
    rw [if_pos ⟨hsize, hpadlt, hch, hft, hfr⟩]
  rw [hpack, Option.some_bind]
  set B := ct.value ++ toBytesBE 4 (0x18 + bs0.length + pad) ++ [0] ++ [0x18]
    ++ toBytesBE 2 pad ++ [ch] ++ [0, 0] ++ [pt.value] ++ toBytesBE 4 ft
    ++ toBytesBE 4 fr ++ List.replicate 8 0 ++ bs0 ++ List.replicate pad 0 with hB
  have hBlen : B.length = 0x20 + bs0.length + pad := by
    rw [hB]
    simp [length_value, length_toBytesBE]
    omega
  have hlen : ¬ B.length < 0x10 := by
    rw [hBlen]
    omega
  have hB4 : B.take 4 = ct.value := by
    have hb2 : B = ct.value ++ (toBytesBE 4 (0x18 + bs0.length + pad) ++ ([0]
        ++ ([0x18] ++ (toBytesBE 2 pad ++ ([ch] ++ ([0, 0] ++ ([pt.value]
        ++ (toBytesBE 4 ft ++ (toBytesBE 4 fr ++ (List.replicate 8 0
        ++ (bs0 ++ List.replicate pad 0))))))))))) := by
      rw [hB]
      simp
    rw [hb2]
    exact take_append_exact _ _ 4 (length_value ct)
  have hct : chunkTypeFromBytes (B.take 4) = some ct := by
    rw [hB4]
    exact chunkTypeFromBytes_value ct
  have hcs : beVal (sliceList B 0x4 0x8) = 0x18 + bs0.length + pad := by
    have hb2 : B = ct.value ++ toBytesBE 4 (0x18 + bs0.length + pad) ++ ([0]
        ++ ([0x18] ++ (toBytesBE 2 pad ++ ([ch] ++ ([0, 0] ++ ([pt.value]
        ++ (toBytesBE 4 ft ++ (toBytesBE 4 fr ++ (List.replicate 8 0
        ++ (bs0 ++ List.replicate pad 0)))))))))) := by
      rw [hB]
      simp
    rw [hb2, sliceList_at _ _ _ 0x4 0x8 (length_value ct) (by rw [length_toBytesBE])]
    exact beVal_toBytesBE (k := 4) (by simpa using hsize)
  have hpo : B.getD 0x9 0 = 0x18 := by
    have hb2 : B = (ct.value ++ toBytesBE 4 (0x18 + bs0.length + pad) ++ [0])
        ++ (0x18 : Nat) :: (toBytesBE 2 pad ++ ([ch] ++ ([0, 0] ++ ([pt.value]
        ++ (toBytesBE 4 ft ++ (toBytesBE 4 fr ++ (List.replicate 8 0
        ++ (bs0 ++ List.replicate pad 0)))))))) := by
      rw [hB]
      simp
    rw [hb2]
    exact getD_append_exact _ _ _ 0x9 (by simp [length_value, length_toBytesBE])
  have hps : beVal (sliceList B 0xA 0xC) = pad := by
    have hb2 : B = (ct.value ++ toBytesBE 4 (0x18 + bs0.length + pad) ++ [0]
        ++ [0x18]) ++ toBytesBE 2 pad ++ ([ch] ++ ([0, 0] ++ ([pt.value]
        ++ (toBytesBE 4 ft ++ (toBytesBE 4 fr ++ (List.replicate 8 0
        ++ (bs0 ++ List.replicate pad 0))))))) := by
      rw [hB]
      simp
    rw [hb2, sliceList_at _ _ _ 0xA 0xC
      (by simp [length_value, length_toBytesBE]) (by rw [length_toBytesBE])]
    exact beVal_toBytesBE (k := 2) (by simpa using hpadlt)
  have hchr : B.getD 0xC 0 = ch := by
    have hb2 : B = (ct.value ++ toBytesBE 4 (0x18 + bs0.length + pad) ++ [0]
        ++ [0x18] ++ toBytesBE 2 pad) ++ ch :: ([0, 0] ++ ([pt.value]
        ++ (toBytesBE 4 ft ++ (toBytesBE 4 fr ++ (List.replicate 8 0
        ++ (bs0 ++ List.replicate pad 0)))))) := by
      rw [hB]
      simp
    rw [hb2]
    exact getD_append_exact _ _ _ 0xC (by simp [length_value, length_toBytesBE])
  have hptv : B.getD 0xF 0 = pt.value := by
    have hb2 : B = (ct.value ++ toBytesBE 4 (0x18 + bs0.length + pad) ++ [0]
        ++ [0x18] ++ toBytesBE 2 pad ++ [ch] ++ [0, 0]) ++ pt.value
        :: (toBytesBE 4 ft ++ (toBytesBE 4 fr ++ (List.replicate 8 0
        ++ (bs0 ++ List.replicate pad 0)))) := by
      rw [hB]
      simp
    rw [hb2]
    exact getD_append_exact _ _ _ 0xF (by simp [length_value, length_toBytesBE])
  have hftr : beVal (sliceList B 0x10 0x14) = ft := by
    have hb2 : B = (ct.value ++ toBytesBE 4 (0x18 + bs0.length + pad) ++ [0]
        ++ [0x18] ++ toBytesBE 2 pad ++ [ch] ++ [0, 0] ++ [pt.value])
        ++ toBytesBE 4 ft ++ (toBytesBE 4 fr ++ (List.replicate 8 0
        ++ (bs0 ++ List.replicate pad 0))) := by
      rw [hB]
      simp
    rw [hb2, sliceList_at _ _ _ 0x10 0x14
      (by simp [length_value, length_toBytesBE]) (by rw [length_toBytesBE])]
    exact beVal_toBytesBE (k := 4) (by simpa using hft)
  have hfrr : beVal (sliceList B 0x14 0x18) = fr := by
    have hb2 : B = (ct.value ++ toBytesBE 4 (0x18 + bs0.length + pad) ++ [0]
        ++ [0x18] ++ toBytesBE 2 pad ++ [ch] ++ [0, 0] ++ [pt.value]
        ++ toBytesBE 4 ft) ++ toBytesBE 4 fr ++ (List.replicate 8 0
        ++ (bs0 ++ List.replicate pad 0)) := by
      rw [hB]
      simp
    rw [hb2, sliceList_at _ _ _ 0x14 0x18
      (by simp [length_value, length_toBytesBE]) (by rw [length_toBytesBE])]
    exact beVal_toBytesBE (k := 4) (by simpa using hfr)
  have hpt : payloadTypeFromInt ((B.getD 0xF 0) % 4) = some pt := by
    rw [hptv]
    exact payloadTypeFromInt_value pt
  have hpraw : pySlice B (0x08 + 0x18)
      ((0x08 + 0x18 : Nat) + (((0x18 + bs0.length + pad : Nat) : Int)
        - ((pad : Nat) : Int) - ((0x18 : Nat) : Int))) = bs0 := by
    have hstop : ((0x08 + 0x18 : Nat) : Int) + (((0x18 + bs0.length + pad : Nat)
        : Int) - ((pad : Nat) : Int) - ((0x18 : Nat) : Int))
        = ((0x20 + bs0.length : Nat) : Int) := by
      push_cast
      ring
    rw [hstop, pySlice_ofNat]
    have hb2 : B = (ct.value ++ toBytesBE 4 (0x18 + bs0.length + pad) ++ [0]
        ++ [0x18] ++ toBytesBE 2 pad ++ [ch] ++ [0, 0] ++ [pt.value]
        ++ toBytesBE 4 ft ++ toBytesBE 4 fr ++ List.replicate 8 0)
        ++ bs0 ++ List.replicate pad 0 := by
      rw [hB]
    rw [hb2]
    refine sliceList_at _ _ _ (0x08 + 0x18) (0x20 + bs0.length) ?_ ?_
    · simp [length_value, length_toBytesBE]
    · omega
  have hnotpages : is_payload_list_pages (bs0.take 4) = false := by
    simp only [is_payload_list_pages, List.take_take]
    simp only [Nat.min_self]
    exact beq_eq_false_iff_ne.mpr hnotutf
  have heval := chunkFromBytes_eval B hlen ct hct (0x18 + bs0.length + pad) 0x18 pad
    ch ft fr hcs hpo hps hchr hftr hfrr pt hpt bs0 hpraw hnotpages
  exact heval

theorem claim2_witness :
    ([9, 9].take 4 ≠ utfMagic)
    ∧ (chunkPack (UsmChunk.mk .VIDEO .STREAM (.raw [9, 9]) 30 1 (.fixed 5) 2
          0x18)).bind chunkFromBytes
      = some (UsmChunk.mk .VIDEO .STREAM (.raw [9, 9]) 30 1 (.fixed 5) 2 0x20) :=
  ⟨by decide, claim2_chunk_roundtrip .VIDEO .STREAM [9, 9] 5 2 1 30 (by decide)
    (by decide) (by decide) (by decide) (by decide) (by decide)⟩

theorem schemaDesc_len (SA BA : List Nat) :
    ∀ (es : List (List Nat × Element)) (sh : List Nat),
    SchemaDesc SA BA [] es sh → sh.length = 5 * es.length := by
  intro es
  induction es with
  | nil =>
    intro sh h
    rw [show sh = [] from h]
    rfl
  | cons kv rest ih =>
    intro sh h
    obtain ⟨k, e⟩ := kv
    simp only [SchemaDesc] at h
    obtain ⟨off, sh2, _, _, hshape, hrest⟩ := h
    rw [if_neg (by simp)] at hshape
    rw [hshape]
    have := ih sh2 hrest
    simp [length_toBytesBE, this]
    ring

theorem uniqueLen_nil_sum : ∀ es : List (List Nat × Element),
    uniqueLen [] es = (es.map (fun kv => elemSize kv.2.type)).sum := by
  intro es
  induction es with
  | nil => rfl
  | cons kv rest ih =>
    obtain ⟨k, e⟩ := kv
    simp [uniqueLen, ih]

/-- C8: a table of exactly one page classifies every column as
non-recurring: `common_elements` is empty, the shared schema region holds
exactly the five descriptor bytes per column (offset field
`unique_array_offset` = 24 + 5·N, so no value is inlined), the
`unique_array_size_per_page` field stores the total encoded size of all
columns, and the unique-array region of the output carries every
column's value bytes in order. -/
theorem claim8_single_page (p : UsmPage) (sp : Nat) (bs : List Nat)
    (hkeys0 : ∀ k ∈ p.dict.map Prod.fst, (0 : Nat) ∉ k)
    (hnodup : (p.dict.map Prod.fst).Nodup)
    (hvalid : ∀ k e, (k, e) ∈ p.dict → ValidVal e.type e.val)
    (hpack : packPages [p] sp = some bs) :
    commonKeys [p] = []
    ∧ beVal (sliceList bs 8 12) = 24 + 5 * p.dict.length
    ∧ beVal (sliceList bs 26 28) = (p.dict.map (fun kv => elemSize kv.2.type)).sum
    ∧ ∃ SA BA, UniqueDesc SA BA [] p.dict
        (sliceList bs (8 + (24 + 5 * p.dict.length))
          (8 + (24 + 5 * p.dict.length)
            + (p.dict.map (fun kv => elemSize kv.2.type)).sum)) := by
  have hck : commonKeys [p] = [] := by simp [commonKeys]
  have hc1 : [p].all (fun q => q.name == p.name) = true := by simp
  have hc2 : [p].all (fun q => q.dict.length == p.dict.length) = true := by simp
  have hc3 : keysUnion [p] = p.dict.map Prod.fst :=
    keysUnion_eq (by intro q hq; simp at hq; rw [hq]) hnodup
  simp only [packPages] at hpack
  rw [hc1] at hpack
  rw [if_neg (by simp)] at hpack
  rw [hc2] at hpack
  rw [if_neg (by simp)] at hpack
  rw [hc3] at hpack
  rw [if_neg (by simp)] at hpack
  set K : List (List Nat) := p.dict.map Prod.fst with hK
  set sa0 : List Nat := nullTag ++ p.name ++ [0] with hsa0
  set common : List (List Nat) := commonKeys [p] with hcommon
  set nameOffs : List (List Nat × Nat) := (internKeys K sa0).2 with hnameOffs
  set intPool : List Nat := (internKeys K sa0).1 with hintPool
  obtain ⟨hextInt, hoffsInt⟩ := internKeys_spec K sa0 hnodup hkeys0
  have hckc : common = [] := by rw [hcommon]; exact hck
  cases hemit : emitPages common nameOffs true [p] ⟨[], [], intPool, []⟩ with
  | none =>
    rw [hemit] at hpack
    exact absurd hpack (by simp)
  | some st =>
    rw [hemit] at hpack
    simp only at hpack
    simp only [emitPages] at hemit
    cases hee : emitEntries true common nameOffs p.dict ⟨[], [], intPool, []⟩ with
    | none => rw [hee] at hemit; exact absurd hemit (by simp)
    | some st1 =>
      rw [hee] at hemit
      simp only [emitPages] at hemit
      have hst : st1 = st := Option.some.inj hemit
      subst hst
      obtain ⟨hes1, heb1, ⟨seg, hseg⟩, ⟨useg0, huseg0⟩, hdesc1⟩ :=
        emitEntries_first_spec common nameOffs intPool p.dict _ st1 hee
          (fun k e hm => hvalid k e hm)
          (fun k e hm => hoffsInt k (List.mem_map.mpr ⟨(k, e), hm, rfl⟩))
          (Extends.refl _)
      obtain ⟨hsch, huni⟩ := hdesc1 st1.strArr st1.byteArr (Extends.refl _) (Extends.refl _)
      simp only [List.length_nil, List.drop_zero] at hsch huni
      rw [hckc] at hsch huni
      have hshlen : st1.shared.length = 5 * p.dict.length :=
        schemaDesc_len _ _ _ _ hsch
      have hunlen : st1.unique.length
          = (p.dict.map (fun kv => elemSize kv.2.type)).sum := by
        rw [UniqueDesc.len huni, uniqueLen_nil_sum]
      by_cases hguard : 24 + st1.shared.length + st1.unique.length
            + (st1.strArr ++ List.replicate sp 0).length + st1.byteArr.length < 2 ^ 32 ∧
          24 + st1.shared.length < 2 ^ 32 ∧
          24 + st1.shared.length + st1.unique.length < 2 ^ 32 ∧
          24 + st1.shared.length + st1.unique.length
            + (st1.strArr ++ List.replicate sp 0).length < 2 ^ 32 ∧
          p.dict.length < 2 ^ 16 ∧
          st1.unique.length / [p].length < 2 ^ 16 ∧
          ([p] : List UsmPage).length < 2 ^ 32
      case neg =>
        rw [if_neg hguard] at hpack
        exact absurd hpack (by simp)
      case pos =>
        rw [if_pos hguard] at hpack
        have hbs : bs = utfMagic
            ++ toBytesBE 4 (24 + st1.shared.length + st1.unique.length
              + (st1.strArr ++ List.replicate sp 0).length + st1.byteArr.length)
            ++ toBytesBE 4 (24 + st1.shared.length)
            ++ toBytesBE 4 (24 + st1.shared.length + st1.unique.length)
            ++ toBytesBE 4 (24 + st1.shared.length + st1.unique.length
              + (st1.strArr ++ List.replicate sp 0).length)
            ++ toBytesBE 4 nullTag.length
            ++ toBytesBE 2 p.dict.length
            ++ toBytesBE 2 (st1.unique.length / [p].length)
            ++ toBytesBE 4 ([p] : List UsmPage).length
            ++ st1.shared ++ st1.unique ++ (st1.strArr ++ List.replicate sp 0)
            ++ st1.byteArr := (Option.some.inj hpack).symm
        clear hpack
        set sh := st1.shared with hsh
        set un := st1.unique with hun
        set SF := st1.strArr ++ List.replicate sp 0 with hSF
        set bar := st1.byteArr with hbar
        set dsv := 24 + sh.length + un.length + SF.length + bar.length with hdsv
        set uaov := 24 + sh.length with huaov
        set sov := 24 + sh.length + un.length with hsov
        set baov := 24 + sh.length + un.length + SF.length with hbaov
        set uspv := un.length / ([p] : List UsmPage).length with huspv
        set G1 := toBytesBE 4 dsv with hG1
        set G2 := toBytesBE 4 uaov with hG2
        set G3 := toBytesBE 4 sov with hG3
        set G4 := toBytesBE 4 baov with hG4
        set G5 := toBytesBE 4 nullTag.length with hG5
        set G6 := toBytesBE 2 p.dict.length with hG6
        set G7 := toBytesBE 2 uspv with hG7
        set G8 := toBytesBE 4 ([p] : List UsmPage).length with hG8
        have hlG1 : G1.length = 4 := length_toBytesBE _ _
        have hlG2 : G2.length = 4 := length_toBytesBE _ _
        have hlG3 : G3.length = 4 := length_toBytesBE _ _
        have hlG4 : G4.length = 4 := length_toBytesBE _ _
        have hlG5 : G5.length = 4 := length_toBytesBE _ _
        have hlG6 : G6.length = 2 := length_toBytesBE _ _
        have hlG7 : G7.length = 2 := length_toBytesBE _ _
        have hlG8 : G8.length = 4 := length_toBytesBE _ _
        have hlmagic : utfMagic.length = 4 := rfl
        have huspS : uspv = (p.dict.map (fun kv => elemSize kv.2.type)).sum := by
          rw [huspv]
          simp [hunlen]
        have hr2 : sliceList bs 8 12 = G2 := by
          have hb2 : bs = (utfMagic ++ G1) ++ G2 ++ (G3 ++ (G4 ++ (G5 ++ (G6 ++ (G7
              ++ (G8 ++ (sh ++ (un ++ (SF ++ bar))))))))) := by
            rw [hbs]
            simp
          rw [hb2]
          exact sliceList_at _ _ _ 8 12 (by simp [hlmagic, hlG1]) (by omega)
        have hr7 : sliceList bs 26 28 = G7 := by
          have hb2 : bs = (utfMagic ++ G1 ++ G2 ++ G3 ++ G4 ++ G5 ++ G6) ++ G7
              ++ (G8 ++ (sh ++ (un ++ (SF ++ bar)))) := by
            rw [hbs]
            simp
          rw [hb2]
          exact sliceList_at _ _ _ 26 28
            (by simp [hlmagic, hlG1, hlG2, hlG3, hlG4, hlG5, hlG6]) (by omega)
        have hrun : sliceList bs (8 + (24 + 5 * p.dict.length))
            (8 + (24 + 5 * p.dict.length)
              + (p.dict.map (fun kv => elemSize kv.2.type)).sum) = un := by
          have hb2 : bs = ((utfMagic ++ G1 ++ G2 ++ G3 ++ G4 ++ G5 ++ G6 ++ G7 ++ G8)
              ++ sh) ++ un ++ (SF ++ bar) := by
            rw [hbs]
            simp
          rw [hb2]
          refine sliceList_at _ _ _ (8 + (24 + 5 * p.dict.length))
            (8 + (24 + 5 * p.dict.length)
              + (p.dict.map (fun kv => elemSize kv.2.type)).sum) ?_ ?_
          · simp only [List.length_append, hlmagic, hlG1, hlG2, hlG3, hlG4, hlG5,
              hlG6, hlG7, hlG8]
            omega
          · omega
        refine ⟨hck, ?_, ?_, ⟨st1.strArr, st1.byteArr, ?_⟩⟩
        · rw [hr2, hG2]
          rw [beVal_toBytesBE (k := 4) (by simpa using hguard.2.1)]
          rw [huaov, hshlen]
        · rw [hr7, hG7]
          rw [beVal_toBytesBE (k := 2) (by simpa using hguard.2.2.2.2.2.1)]
          exact huspS
        · rw [hrun]
          exact huni

theorem claim8_witness :
    packPages [⟨[0x4D], [([0x61], ⟨EValue.vint 7, ElementType.UCHAR⟩)]⟩] 0
      = some ((packPages [⟨[0x4D], [([0x61], ⟨EValue.vint 7, ElementType.UCHAR⟩)]⟩] 0).getD [])
    ∧ (commonKeys [⟨[0x4D], [([0x61], ⟨EValue.vint 7, ElementType.UCHAR⟩)]⟩] = []
      ∧ beVal (sliceList ((packPages [⟨[0x4D], [([0x61], ⟨EValue.vint 7, ElementType.UCHAR⟩)]⟩] 0).getD []) 8 12)
        = 24 + 5 * ([([0x61], ⟨EValue.vint 7, ElementType.UCHAR⟩)] : List (List Nat × Element)).length
      ∧ beVal (sliceList ((packPages [⟨[0x4D], [([0x61], ⟨EValue.vint 7, ElementType.UCHAR⟩)]⟩] 0).getD []) 26 28)
        = (([([0x61], ⟨EValue.vint 7, ElementType.UCHAR⟩)] : List (List Nat × Element)).map
            (fun kv => elemSize kv.2.type)).sum
      ∧ ∃ SA BA, UniqueDesc SA BA [] [([0x61], ⟨EValue.vint 7, ElementType.UCHAR⟩)]
          (sliceList ((packPages [⟨[0x4D], [([0x61], ⟨EValue.vint 7, ElementType.UCHAR⟩)]⟩] 0).getD [])
            (8 + (24 + 5 * ([([0x61], ⟨EValue.vint 7, ElementType.UCHAR⟩)] : List (List Nat × Element)).length))
            (8 + (24 + 5 * ([([0x61], ⟨EValue.vint 7, ElementType.UCHAR⟩)] : List (List Nat × Element)).length)
              + (([([0x61], ⟨EValue.vint 7, ElementType.UCHAR⟩)] : List (List Nat × Element)).map
                  (fun kv => elemSize kv.2.type)).sum))) :=
  ⟨by decide, claim8_single_page ⟨[0x4D], [([0x61], ⟨EValue.vint 7, ElementType.UCHAR⟩)]⟩ 0 _
    (by decide) (by decide)
    (by
      intro k e h
      simp at h
      rw [h.2]
      trivial)
    (by decide)⟩

theorem dictGet_dictUpdate (d : List (List Nat × Element)) (k : List Nat)
    (e : Element) : dictGet (dictUpdate d k e) k = some e := by
  induction d with
  | nil => simp [dictUpdate, dictGet]
  | cons kv rest ih =>
    obtain ⟨k0, e0⟩ := kv
    by_cases h : k0 = k
    · simp [dictUpdate, dictGet, h]
    · simp [dictUpdate, dictGet, h, ih]

/-- C10 counterexample: `UsmPage.update` under the key `filename` does
not store every value — a non-string value makes
`element.replace("\\", "/")` raise instead of storing the value. -/
theorem claim10_cex :
    pageUpdate ⟨[0x41], []⟩ filenameKey .INT (.vint 5) = none := by
  rfl

/-- C10 (amended): under the key `filename`, `UsmPage.update` stores a
string value with every backslash replaced by a forward slash (and only
string values are accepted there); under any other key it stores the
value unchanged. -/
theorem claim10_update (pg : UsmPage) (k : List Nat) (t : ElementType)
    (v : EValue) :
    (k = filenameKey → ∀ s, v = EValue.vstr s →
      ∃ pg2, pageUpdate pg k t v = some pg2
        ∧ dictGet pg2.dict k = some ⟨EValue.vstr (replaceBackslash s), t⟩)
    ∧ (k ≠ filenameKey →
      ∃ pg2, pageUpdate pg k t v = some pg2 ∧ dictGet pg2.dict k = some ⟨v, t⟩) := by
  constructor
  · intro hk s hv
    subst hk
    subst hv
    refine ⟨⟨pg.name, dictUpdate pg.dict filenameKey
      ⟨EValue.vstr (replaceBackslash s), t⟩⟩, ?_, dictGet_dictUpdate _ _ _⟩
    simp [pageUpdate]
  · intro hk
    refine ⟨⟨pg.name, dictUpdate pg.dict k ⟨v, t⟩⟩, ?_, dictGet_dictUpdate _ _ _⟩
    simp [pageUpdate, hk]

theorem claim10_witness :
    (∃ pg2, pageUpdate ⟨[0x41], []⟩ filenameKey .STRING (.vstr [0x5C, 0x61])
        = some pg2
      ∧ dictGet pg2.dict filenameKey
          = some ⟨EValue.vstr (replaceBackslash [0x5C, 0x61]), .STRING⟩)
    ∧ (∃ pg2, pageUpdate ⟨[0x41], []⟩ [0x6B] .UINT (.vint 3) = some pg2
      ∧ dictGet pg2.dict [0x6B] = some ⟨EValue.vint 3, .UINT⟩) :=
  ⟨(claim10_update ⟨[0x41], []⟩ filenameKey .STRING (.vstr [0x5C, 0x61])).1
      rfl [0x5C, 0x61] rfl,
    (claim10_update ⟨[0x41], []⟩ [0x6B] .UINT (.vint 3)).2 (by decide)⟩

/-! ## Usm construction: `Usm.__init__` (usm.py lines 40-83)

Video and audio channels enter `__init__` only through their channel
number (the `sort` comparison of `protocols.py`) and their frame count
(`len`), so they are modelled by those two fields.  The empty-video check
raises `ValueError`, modelled by `none`; a provided key goes through
`generate_keys`, whose own failure also propagates. -/

structure UsmMediaCh where
  channelNumber : Nat
  numFrames : Nat

/-- `list.sort()` on channels: stable sort by channel number
(`UsmMedia.__lt__`). -/
def sortByChannel (cs : List UsmMediaCh) : List UsmMediaCh :=
  cs.mergeSort (fun a b => a.channelNumber ≤ b.channelNumber)

structure Usm where
  version : Nat
  videos : List UsmMediaCh
  audios : List UsmMediaCh
  maxFrame : Nat
  videoKey : Option (List Nat)
  audioKey : Option (List Nat)

/-- Model of `Usm.__init__`. -/
def mkUsm (video : List UsmMediaCh) (audio : Option (List UsmMediaCh))
    (key : Option Nat) (version : Nat) : Option Usm :=
  if video.length = 0 then none
  else
    let audios := match audio with
      | none => []
      | some a => sortByChannel a
    let videos := sortByChannel video
    let mf0 := videos.foldl (fun m v => max m v.numFrames) 0
    let maxFrame := audios.foldl (fun m a => max m a.numFrames) mf0
    match key with
    | none => some ⟨version, videos, audios, maxFrame, none, none⟩
    | some k =>
      match generateKeys k with
      | none => none
      | some z => some ⟨version, videos, audios, maxFrame, some z.1, some z.2⟩

/-- C9: constructing a `Usm` with an empty video channel list fails with
an error regardless of the audio channels, key and version supplied. -/
theorem claim9_no_videos (audio : Option (List UsmMediaCh)) (key : Option Nat)
    (version : Nat) : mkUsm [] audio key version = none := by
  simp [mkUsm]

/-! ## Muxer chunk emission: `protocols.py` `UsmVideo.chunks` and
`usm.py` `_generate_header_metadata_chunks` / `metadata_pad` -/

/-- Stream-chunk padding (protocols.py lines 165-167). -/
def streamChunkPadding (L : Nat) : Nat :=
  if L % 0x20 ≠ 0 then 0x20 - L % 0x20 else 0

/-- `metadata_pad` (usm.py lines 520-525); `math.ceil(size / 0x8) * 0x8`
on a nonnegative int is `(size + 7) / 8 * 8`. -/
def metadata_pad (size : Nat) : Nat :=
  if size ≤ 0xF0 then 0xF0 - size else (size + 7) / 8 * 8 - size

/-- `"#CONTENTS END   ===============" + bytes(1)` (protocols.py 199-200). -/
def contentsEndPayload : List Nat :=
  "#CONTENTS END   ===============".toList.map Char.toNat ++ [0]

/-- `"#HEADER END     ===============" + bytes(1)` (usm.py 493). -/
def headerEndPayload : List Nat :=
  "#HEADER END     ===============".toList.map Char.toNat ++ [0]

/-- `"#METADATA END   ===============" + bytes(1)` (usm.py 573). -/
def metadataEndPayload : List Nat :=
  "#METADATA END   ===============".toList.map Char.toNat ++ [0]

/-- One `VIDEO_SEEKINFO` metadata page as the muxer builds it
(usm.py lines 537-542). -/
def videoSeekInfoPage (index : Nat) (offset : Int) : Option UsmPage :=
  (pageUpdate ⟨"VIDEO_SEEKINFO".toList.map Char.toNat, []⟩
      ("ofs_byte".toList.map Char.toNat) .LONGLONG (.vint offset)).bind fun p1 =>
  (pageUpdate p1 ("ofs_frmid".toList.map Char.toNat) .UINT
      (.vint (index : Int))).bind fun p2 =>
  (pageUpdate p2 ("num_skip".toList.map Char.toNat) .USHORT (.vint 0)).bind fun p3 =>
  pageUpdate p3 ("resv".toList.map Char.toNat) .USHORT (.vint 0)

set_option maxRecDepth 4096 in
/-- C6 counterexample: the metadata chunk the muxer emits for a single
`VIDEO_SEEKINFO` page has total length `0xF0`, which is not a multiple
of `0x20` (`0xF0 % 0x20 = 0x10`): `metadata_pad` rounds metadata chunks
to `0xF0` (or to 8 bytes), not to `0x20`. -/
theorem claim6_cex :
    (videoSeekInfoPage 0 0).bind (fun pg =>
        usmChunkLen (UsmChunk.mk .VIDEO .METADATA (.pages [pg]) 30 0
          (.fn metadata_pad) 0 0x18)) = some 0xF0
    ∧ (0xF0 : Nat) % 0x20 ≠ 0 := by
  constructor
  · decide
  · decide

/-- C6 (amended): the `0x20`-alignment invariant holds for the stream
chunks (whose padding is computed to the next `0x20` boundary) and for
the section-end chunks (fixed 32-byte payloads with zero padding,
total `0x40`), but metadata chunks are padded by `metadata_pad` to a
total of exactly `0xF0` when small and to an 8-byte boundary
otherwise. -/
theorem claim6_alignment (pstream : List Nat) (L : Nat) :
    (usmChunkLen (UsmChunk.mk .VIDEO .STREAM (.raw pstream) 30 0
        (.fixed (streamChunkPadding pstream.length)) 0 0x18)).map
        (fun n => n % 0x20) = some 0
    ∧ usmChunkLen (UsmChunk.mk .VIDEO .SECTION_END (.raw contentsEndPayload) 30 0
        (.fixed 0) 0 0x18) = some 0x40
    ∧ usmChunkLen (UsmChunk.mk .VIDEO .SECTION_END (.raw headerEndPayload) 30 0
        (.fixed 0) 0 0x18) = some 0x40
    ∧ usmChunkLen (UsmChunk.mk ChunkType.AUDIO .SECTION_END (.raw metadataEndPayload) 30 0
        (.fixed 0) 0 0x18) = some 0x40
    ∧ (0x20 + L + metadata_pad (0x20 + L)) % 8 = 0
    ∧ (0x20 + L + metadata_pad (0x20 + L))
        = if 0x20 + L ≤ 0xF0 then 0xF0 else (0x20 + L + 7) / 8 * 8 := by
  refine ⟨?_, by decide, by decide, by decide, ?_, ?_⟩
  · simp only [usmChunkLen, encodedPayload, paddingOf, Option.some_bind,
      Option.map_some', streamChunkPadding]
    congr 1
    by_cases h : pstream.length % 0x20 = 0
    · rw [if_neg (by simpa using h)]
      omega
    · rw [if_pos (by simpa using h)]
      omega
  · simp only [metadata_pad]
    by_cases h : 0x20 + L ≤ 0xF0
    · rw [if_pos h]
      omega
    · rw [if_neg h]
      omega
  · simp only [metadata_pad]
    by_cases h : 0x20 + L ≤ 0xF0
    · rw [if_pos h, if_pos h]
      omega
    · rw [if_neg h, if_neg h]
      omega

end WannaCRI